import Mathlib

/-!
# LSH index: `Train` and `Search` (package `lsh`, file `lsh/lsh.go`)

A shallow embedding of the index of `lsh/lsh.go`.

* `float64` is a type parameter `F` that carries only the comparison `≤` the
  code uses (`dist <= config.DistanceThrsh`); no order law is assumed of it.
* Go `int` is `Int`, `uint64` signatures are `Nat`, `string` is `String`,
  slices are lists.
* The store (`store.Store`) is an interface: a record of operations over an
  explicit state `σ`.
* A Go `map` that is ranged over is the list of its entries in the order the
  `range` statement visits them.
-/

namespace Lsh

/-! ## Data model -/

/-- Go `error` values the index can see.  `DistanceErr` is the package variable
declared in `lsh.go`; the other two stand for the errors a store returns: its
bucket or vector miss, and any other failure. -/
inductive GoError where
  | DistanceErr
  | notFound
  | storeFailure (tag : Nat)
  deriving DecidableEq, Repr

/-- Record holds a vector and its identifier. -/
structure Record (F : Type) where
  ID : String
  Vec : List F
  deriving DecidableEq, Repr

/-- Metric interface: `GetDist(l, r []float64) float64`. -/
structure Metric (F : Type) where
  GetDist : List F → List F → F

/-- LshConfig without its mutex. -/
structure LshConfig (F : Type) where
  DistanceThrsh : F
  MaxNN : Int
  BatchSize : Int

/-- Modelled from the spec: `hasher.go` is not among the sources.  `Dims` is the
dimension D the hasher was generated for and `getHashes` its signature map
`permutation_id → signature`; the result type is the one the call sites in
`lsh.go` fix (a single returned map, no error), given as the list of entries in
the order a `range` over it visits them. -/
structure Hasher (F : Type) where
  Dims : Nat
  getHashes : List F → List (Int × Nat)

/-- The `store.Store` interface as `lsh.go` uses it, over a store state `σ`.
Writes return the error (if any) and the state they leave behind; reads return a
value or an error.  An iterator is the list of ids `Next` yields with
`opened = true`, up to its first answer with `opened = false`. -/
structure Store (σ F : Type) where
  Clear : σ → Option GoError × σ
  SetVector : String → List F → σ → Option GoError × σ
  SetHash : Int → Nat → String → σ → Option GoError × σ
  GetVector : String → σ → Except GoError (List F)
  GetHashIterator : Int → Nat → σ → Except GoError (List String)

/-- LSHIndex holds the config, the store, the hasher and the metric. -/
structure LSHIndex (σ F : Type) where
  config : LshConfig F
  index : Store σ F
  hasher : Hasher F
  distanceMetric : Metric F

/-! ## Search -/

section SearchDefs

variable {σ F : Type} [LE F] [∀ a b : F, Decidable (a ≤ b)]

/-- A store call `Search` makes. -/
inductive StoreCall where
  | getHashIterator (perm : Int) (hash : Nat)
  | next
  | getVector (id : String)
  deriving DecidableEq, Repr

/-- The inner `for` of `Search` (lines 115-136) over the ids an iterator
yields.  `closestSet` is the set of keys of the Go map `closestSet` (only `true`
is ever stored in it), `closest` the result slice.  The first component of the
result lists the store calls made, in order; the second is what the loop ends
with: an error to return, or the two variables at the `break`. -/
def scanBucket (lsh : LSHIndex σ F) (s : σ) (query : List F) :
    List String → List String → List (Record F) →
      List StoreCall × Except GoError (List String × List (Record F))
  | [], closestSet, closest =>
    if lsh.config.MaxNN ≤ (closest.length : Int) then ([], .ok (closestSet, closest))
    else ([.next], .ok (closestSet, closest))
  | id :: rest, closestSet, closest =>
    if lsh.config.MaxNN ≤ (closest.length : Int) then ([], .ok (closestSet, closest))
    else if id ∈ closestSet then
      let r := scanBucket lsh s query rest closestSet closest
      (.next :: r.1, r.2)
    else
      match lsh.index.GetVector id s with
      | .error err => ([.next, .getVector id], .error err)
      | .ok vec =>
        let r :=
          if lsh.distanceMetric.GetDist vec query ≤ lsh.config.DistanceThrsh then
            scanBucket lsh s query rest (id :: closestSet) (closest ++ [⟨id, vec⟩])
          else scanBucket lsh s query rest closestSet closest
        (.next :: .getVector id :: r.1, r.2)

/-- The outer `for perm, hash := range hashes` of `Search` (lines 107-137),
over the entries of `hashes` in the order the range visits them, with the store
calls made. -/
def probe (lsh : LSHIndex σ F) (s : σ) (query : List F) :
    List (Int × Nat) → List String → List (Record F) →
      List StoreCall × Except GoError (List (Record F))
  | [], _, closest => ([], .ok closest)
  | (perm, hash) :: rest, closestSet, closest =>
    if lsh.config.MaxNN ≤ (closest.length : Int) then ([], .ok closest)
    else
      match lsh.index.GetHashIterator perm hash s with
      | .error _ =>
        let r := probe lsh s query rest closestSet closest
        (.getHashIterator perm hash :: r.1, r.2)
      | .ok iter =>
        match scanBucket lsh s query iter closestSet closest with
        | (calls, .error err) => (.getHashIterator perm hash :: calls, .error err)
        | (calls, .ok (closestSet1, closest1)) =>
          let r := probe lsh s query rest closestSet1 closest1
          (.getHashIterator perm hash :: (calls ++ r.1), r.2)

/-- Search with the range order of the map `hashes` made explicit: the store
calls it makes and what it returns. -/
def SearchOn (lsh : LSHIndex σ F) (s : σ) (query : List F)
    (hashes : List (Int × Nat)) : List StoreCall × Except GoError (List (Record F)) :=
  probe lsh s query hashes [] []

/-- Search returns NNs for the query point. -/
def Search (lsh : LSHIndex σ F) (s : σ) (query : List F) :
    Except GoError (List (Record F)) :=
  (SearchOn lsh s query (lsh.hasher.getHashes query)).2

/-- The store calls `Search` makes, in order. -/
def SearchCalls (lsh : LSHIndex σ F) (s : σ) (query : List F) : List StoreCall :=
  (SearchOn lsh s query (lsh.hasher.getHashes query)).1

end SearchDefs

/-! ## Train -/

section TrainDefs

variable {σ F : Type}

/-- A store write a `Train` worker issues. -/
inductive StoreOp (F : Type) where
  | setVector (id : String) (vec : List F)
  | setHash (perm : Int) (hash : Nat) (id : String)
  deriving DecidableEq, Repr

/-- How a call of `Train` ends: it returns (with its error value, `none` for
`nil`), it panics, or `wg.Wait()` never returns.  Each case carries the store
state reached. -/
inductive TrainResult (σ : Type) where
  | returned (err : Option GoError) (s : σ)
  | panicked (s : σ)
  | blocked (s : σ)

/-- The argument of `wg.Add` (line 77): `len(records)/batchSize +
len(records)%batchSize`, Go integer division and remainder. -/
def waitCount (n batchSize : Int) : Int :=
  Int.tdiv n batchSize + Int.tmod n batchSize

/-- The loop `for i := 0; i < len(records); i += batchSize` (lines 78-93): the
slices `records[i:end]` handed to the workers, in dispatch order.  The first
argument bounds the number of iterations. -/
def batchLoop (records : List (Record F)) (batchSize : Nat) :
    Nat → Nat → List (List (Record F))
  | 0, _ => []
  | fuel + 1, i =>
    if i < records.length then
      let stop := if records.length < i + batchSize then records.length else i + batchSize
      ((records.drop i).take (stop - i)) :: batchLoop records batchSize fuel (i + batchSize)
    else []

/-- The batches of `Train` for a positive batch size: the loop needs at most
`len(records)` iterations. -/
def trainBatches (records : List (Record F)) (batchSize : Nat) : List (List (Record F)) :=
  batchLoop records batchSize records.length 0

/-- The store calls one worker makes for its batch (lines 85-91), in program
order: per record `SetVector`, then one `SetHash` per entry of its hashes. -/
def workerOps (hasher : Hasher F) (batch : List (Record F)) : List (StoreOp F) :=
  batch.flatMap fun rec =>
    StoreOp.setVector rec.ID rec.Vec ::
      (hasher.getHashes rec.Vec).map fun ph => StoreOp.setHash ph.1 ph.2 rec.ID

/-- One store call of a worker; the returned error is dropped, as in the
source. -/
def applyOp (store : Store σ F) : StoreOp F → σ → σ
  | .setVector id vec, s => (store.SetVector id vec s).2
  | .setHash perm hash id, s => (store.SetHash perm hash id s).2

/-- The workers run concurrently, store calls being atomic.  `sched` names the
worker that makes the next call; a finished or absent worker is skipped, and
when the schedule is used up the remaining calls run worker by worker.  Every
interleaving of the workers is the run of some schedule. -/
def runWorkers (store : Store σ F) :
    List Nat → List (List (StoreOp F)) → σ → σ
  | [], workers, s => workers.flatten.foldl (fun st op => applyOp store op st) s
  | k :: sched, workers, s =>
    match workers.get? k with
    | some (op :: rest) => runWorkers store sched (workers.set k rest) (applyOp store op s)
    | _ => runWorkers store sched workers s

/-- Train fills the index with vectors.  `sched` is the interleaving of the
workers.  A zero batch size panics at the division of line 77; a negative one
panics at `wg.Add` or at the slice `records[i:end]` unless there are no
records. -/
def Train (lsh : LSHIndex σ F) (sched : List Nat) (records : List (Record F)) (s : σ) :
    TrainResult σ :=
  match lsh.index.Clear s with
  | (some err, s1) => .returned (some err) s1
  | (none, s1) =>
    let batchSize := lsh.config.BatchSize
    if batchSize = 0 then .panicked s1
    else if batchSize < 0 then
      (if records.length = 0 then .returned none s1 else .panicked s1)
    else
      let batches := trainBatches records batchSize.toNat
      let s2 := runWorkers lsh.index sched (batches.map (workerOps lsh.hasher)) s1
      let registered := waitCount records.length batchSize
      if registered = batches.length then .returned none s2
      else if registered < batches.length then .panicked s2
      else .blocked s2

end TrainDefs

/-! ## The store contract -/

section MemStoreDefs

variable {F : Type}

/-- Modelled from the spec: the store package is not among the sources.  The
state of a store that behaves as section 4.2 says: the buckets
`(permutation_id, signature) → set of ids` and the side table `id → vector`. -/
structure MemState (F : Type) where
  buckets : Int → Nat → List String
  vectors : String → Option (List F)

/-- Modelled from the spec: the operations of the store of section 4.2.
`Clear` drops everything, `SetVector` upserts, `SetHash` inserts the id into
the bucket (idempotent), `GetVector` and `GetHashIterator` answer `NotFound`
for an absent id and an empty or absent bucket. -/
def memStore : Store (MemState F) F where
  Clear := fun _ => (none, ⟨fun _ _ => [], fun _ => none⟩)
  SetVector := fun id vec s =>
    (none, ⟨s.buckets, fun k => if k = id then some vec else s.vectors k⟩)
  SetHash := fun perm hash id s =>
    (none, ⟨fun p h =>
      if p = perm ∧ h = hash then
        (if id ∈ s.buckets p h then s.buckets p h else s.buckets p h ++ [id])
      else s.buckets p h, s.vectors⟩)
  GetVector := fun id s =>
    match s.vectors id with
    | some vec => .ok vec
    | none => .error GoError.notFound
  GetHashIterator := fun perm hash s =>
    match s.buckets perm hash with
    | [] => .error GoError.notFound
    | id :: ids => .ok (id :: ids)

end MemStoreDefs

/-! ## Concrete instances -/

section Examples

/-- Squared Euclidean distance over integer vectors. -/
def sqDist : Metric Int where
  GetDist := fun l r => (List.zipWith (fun a b => (a - b) * (a - b)) l r).sum

/-- One permutation, one hyperplane through the origin of dimension 2: the
signature is the sign bit of the first coordinate. -/
def signHasher : Hasher Int where
  Dims := 2
  getHashes := fun vec => [(0, if 0 ≤ vec.headD 0 then 1 else 0)]

/-- A store state with one bucket holding `a`, `b` (twice) and `c`. -/
def demoState : MemState Int where
  buckets := fun p h => if p = 0 ∧ h = 1 then ["a", "b", "b", "c"] else []
  vectors := fun k =>
    if k = "a" then some [1, 0] else if k = "b" then some [2, 0]
    else if k = "c" then some [1, 1] else none

/-- Threshold 1, at most 2 neighbours, batches of 1. -/
def demoIndex : LSHIndex (MemState Int) Int where
  config := ⟨1, 2, 1⟩
  index := memStore
  hasher := signHasher
  distanceMetric := sqDist

end Examples

section FailingStore

/-- A store that is down: `Clear` succeeds, every other call fails with a
store failure that is not the miss signal; it has no state. -/
def downStore : Store Unit Int where
  Clear := fun _ => (none, ())
  SetVector := fun _ _ _ => (some (GoError.storeFailure 1), ())
  SetHash := fun _ _ _ _ => (some (GoError.storeFailure 1), ())
  GetVector := fun _ _ => .error (GoError.storeFailure 1)
  GetHashIterator := fun _ _ _ => .error (GoError.storeFailure 2)

/-- The index of `demoIndex` over the store that is down. -/
def downIndex : LSHIndex Unit Int where
  config := ⟨1, 2, 1⟩
  index := downStore
  hasher := signHasher
  distanceMetric := sqDist

/-- A store whose one bucket yields `a` and `zz`, with no vector for `zz`. -/
def danglingState : MemState Int where
  buckets := fun p h => if p = 0 ∧ h = 1 then ["a", "zz"] else []
  vectors := fun k => if k = "a" then some [1, 0] else none

/-- The store state with no bucket and no vector. -/
def emptyState : MemState Int where
  buckets := fun _ _ => []
  vectors := fun _ => none

end FailingStore

section TrainExamples

/-- Five records with distinct ids. -/
def fiveRecords : List (Record Int) :=
  [⟨"a", [1, 0]⟩, ⟨"b", [2, 0]⟩, ⟨"c", [1, 1]⟩, ⟨"d", [0, 3]⟩, ⟨"e", [-1, 2]⟩]

/-- The index of `demoIndex` with batches of 3. -/
def batch3Index : LSHIndex (MemState Int) Int where
  config := ⟨1, 2, 3⟩
  index := memStore
  hasher := signHasher
  distanceMetric := sqDist

end TrainExamples

section WorkerSpecs

variable {F : Type}

/-- A store write that stems from a record of `records`: its vector, or its id
under one of the hashes of its vector. -/
def OpFrom (hasher : Hasher F) (records : List (Record F)) : StoreOp F → Prop
  | .setVector id vec => (⟨id, vec⟩ : Record F) ∈ records
  | .setHash perm hash id =>
    ∃ r ∈ records, r.ID = id ∧ (perm, hash) ∈ hasher.getHashes r.Vec

/-- A list of store writes in which every `SetHash` of an id comes after a
`SetVector` of that id, or the id is `known` beforehand. -/
def vecFirst (known : String → Prop) : List (StoreOp F) → Prop
  | [] => True
  | .setVector id _ :: rest => vecFirst (fun k => k = id ∨ known k) rest
  | .setHash _ _ id :: rest => known id ∧ vecFirst known rest

end WorkerSpecs

section RetrainExamples

/-- Two records whose ids are not in `demoState`. -/
def twoRecords : List (Record Int) := [⟨"d", [0, 3]⟩, ⟨"e", [-1, 2]⟩]

/-- The store Train leaves when it is run on `twoRecords` from `demoState`, its
two workers interleaved by the schedule `[1, 0, 1]`. -/
def retrainedState : MemState Int :=
  runWorkers memStore [1, 0, 1] ((trainBatches twoRecords 1).map (workerOps signHasher))
    (memStore.Clear demoState).2

end RetrainExamples

section OrderExamples

/-- The index of `demoIndex` with room for 5 neighbours. -/
def wideIndex : LSHIndex (MemState Int) Int where
  config := ⟨1, 5, 1⟩
  index := memStore
  hasher := signHasher
  distanceMetric := sqDist

/-- Two permutations, each with the signature 1 for every vector. -/
def twoPermHasher : Hasher Int where
  Dims := 2
  getHashes := fun _ => [(0, 1), (1, 1)]

/-- A store in which permutation 0 has `a` and permutation 1 has `b` in the
bucket of signature 1, both at the vector `[1, 0]`. -/
def twoBucketState : MemState Int where
  buckets := fun p h =>
    if p = 0 ∧ h = 1 then ["a"] else if p = 1 ∧ h = 1 then ["b"] else []
  vectors := fun k => if k = "a" ∨ k = "b" then some [1, 0] else none

/-- An index over two permutations that returns at most 1 neighbour. -/
def capOneIndex : LSHIndex (MemState Int) Int where
  config := ⟨1, 1, 1⟩
  index := memStore
  hasher := twoPermHasher
  distanceMetric := sqDist

end OrderExamples

end Lsh

/-!
# Benchmark client (package `annbench`, file `annbench/annbench.go`)

`[]int` values are lists of `Int` (they are only compared), lengths and counters
are `Nat`.  A run-time panic (index out of range) is the result `none`.
-/

namespace Annbench

open Lsh (GoError)

/-! ## Recall -/

/-- The `float64` value `float64(num) / float64(den)` of two counts: NaN for
`0/0`, `+Inf` for a positive count over 0, and otherwise the quotient, kept as
the exact rational (its rounding to a `float64` is not modelled). -/
inductive FloatQuot where
  | nan
  | inf
  | val (q : Rat)
  deriving DecidableEq

/-- The division `float64(num) / float64(den)`. -/
def floatDiv (num den : Nat) : FloatQuot :=
  if den = 0 then (if num = 0 then .nan else .inf) else .val ((num : Rat) / (den : Rat))

/-- The loop `for i := range prediction` of `Recall` (lines 28-32) with `i` and
`valid` as they stand before the remaining predictions; `none` when
`groundTruth[i]` is out of range. -/
def recallLoop (groundTruth : List Int) : List Int → Nat → Nat → Option Nat
  | [], _, valid => some valid
  | p :: rest, i, valid =>
    match groundTruth.get? i with
    | none => none
    | some g => recallLoop groundTruth rest (i + 1) (if p = g then valid + 1 else valid)

/-- Recall returns ratio of relevant predictions over the all true relevant
items; both arrays MUST BE SORTED. -/
def Recall (prediction groundTruth : List Int) : Option FloatQuot :=
  (recallLoop groundTruth prediction 0 0).map fun valid => floatDiv valid groundTruth.length

/-- The ratio the doc comment of `Recall` names: the number of predictions that
occur in `groundTruth`, over the number of true items. -/
def relevantRatio (prediction groundTruth : List Int) : FloatQuot :=
  floatDiv (prediction.filter fun p => decide (p ∈ groundTruth)).length groundTruth.length

/-! ## Validate -/

section ValidateDefs

variable {ρ F : Type}

/-- The loop `for _, thrsh := range thrshs` of `Validate` (lines 68-77).
`validateThrsh` stands for the method `ValidateThrsh` applied to the records
fetched: the recall it returns for a threshold, or its error. -/
def validateLoop (validateThrsh : ρ → F → Except GoError F) (results : ρ) :
    List F → List F → Except GoError (List F)
  | [], metrics => .ok metrics
  | thrsh :: rest, metrics =>
    match validateThrsh results thrsh with
    | .error err => .error err
    | .ok score => validateLoop validateThrsh results rest (metrics ++ [score])

/-- Validate takes the array of distance thresholds and returns array of recall
values.  `getDbRecords` is the answer of `TestCollection.GetDbRecords`. -/
def Validate [Zero F] (getDbRecords : Except GoError ρ)
    (validateThrsh : ρ → F → Except GoError F) (thrshs : List F) :
    Except GoError (List F) :=
  let metrics := List.replicate thrshs.length (0 : F)
  match getDbRecords with
  | .error err => .error err
  | .ok results => validateLoop validateThrsh results thrshs metrics

end ValidateDefs

/-! ## putBatch -/

section PutBatchDefs

variable {F : Type}

/-- The fields of `db.VectorRecord` that `annbench.go` uses. -/
structure VectorRecord (F : Type) where
  SecondaryID : Int
  FeatureVec : List F
  NeighborsIds : List Int
  deriving DecidableEq

/-- The fields of `cm.RequestData` that `annbench.go` sets. -/
structure RequestData (F : Type) where
  SecondaryID : Int
  Vec : List F
  deriving DecidableEq

/-- How a call of `putBatch` ends: with a run-time panic, or with the slice it
passed to `PutHashes` and the error it returns. -/
inductive PutBatchResult (F : Type) where
  | panicked
  | returned (sent : List (RequestData F)) (err : Option GoError)
  deriving DecidableEq

/-- The loop `for cursor.Next(...)` of `putBatch` (lines 108-118) over the
documents left in the cursor; a document is `none` when `Decode` fails on it.
The result is the buffer and `batchID` after the loop, or `none` when
`batch[batchID]` is out of range. -/
def putBatchLoop : List (Option (VectorRecord F)) → List (RequestData F) → Nat →
    Option (List (RequestData F) × Nat)
  | [], batch, batchID => some (batch, batchID)
  | none :: rest, batch, batchID => putBatchLoop rest batch batchID
  | some record :: rest, batch, batchID =>
    if batchID < batch.length then
      putBatchLoop rest (batch.set batchID ⟨record.SecondaryID, record.FeatureVec⟩)
        (batchID + 1)
    else none

/-- The function putBatch accumulates db documents in a batch of desired length
and hands them to `PutHashes`.  `make` panics on a negative length. -/
def putBatch (putHashes : List (RequestData F) → Option GoError)
    (cursor : List (Option (VectorRecord F))) (batchSize : Int) : PutBatchResult F :=
  if batchSize < 0 then .panicked
  else
    match putBatchLoop cursor (List.replicate batchSize.toNat ⟨0, []⟩) 0 with
    | none => .panicked
    | some (batch, batchID) => .returned (batch.take batchID) (putHashes (batch.take batchID))

end PutBatchDefs

end Annbench

namespace Lsh

/-! ## Search on a query of another length -/

section SearchCallDefs

variable {σ F : Type} [LE F] [∀ a b : F, Decidable (a ≤ b)]

/-- How a Go call ends: it returns a value, or it does not return (a run-time
panic). -/
inductive Outcome (α : Type) where
  | returned (value : α)
  | panicked

/-- Modelled from the spec: `hasher.go` is not among the sources.  The call
`getHashes(vec)` on a hasher generated for dimension `Dims`.  For a vector of
length `Dims` it returns the map of signatures of section 4.3.  For a vector of
any other length `wrongLength` stands for what the concrete hasher does with
it: the map it returns, or `none` when the call does not return; the call site
of line 100 takes a single result, so it cannot return an error. -/
def callGetHashes (hasher : Hasher F) (wrongLength : List F → Option (List (Int × Nat)))
    (vec : List F) : Option (List (Int × Nat)) :=
  if vec.length = hasher.Dims then some (hasher.getHashes vec) else wrongLength vec

/-- Search from line 101 on, given how the call of line 100 ended: when
`getHashes` did not return neither does Search, otherwise the loops run over
the map it returned. -/
def SearchFrom (lsh : LSHIndex σ F) (s : σ) (query : List F) :
    Option (List (Int × Nat)) → Outcome (Except GoError (List (Record F)))
  | none => .panicked
  | some hashes => .returned (SearchOn lsh s query hashes).2

/-- Search as a call that may not return: `getHashes(query)` at line 100, then
the loops. -/
def SearchCall (lsh : LSHIndex σ F) (wrongLength : List F → Option (List (Int × Nat)))
    (s : σ) (query : List F) : Outcome (Except GoError (List (Record F))) :=
  SearchFrom lsh s query (callGetHashes lsh.hasher wrongLength query)

end SearchCallDefs

/-! ## Search: the branches of the two loops -/

section SearchBranches

variable {σ F : Type} [LE F] [∀ a b : F, Decidable (a ≤ b)]
variable (lsh : LSHIndex σ F) (s : σ) (query : List F)

theorem scanBucket_cap (iter cs : List String) (cl : List (Record F))
    (hcap : lsh.config.MaxNN ≤ (cl.length : Int)) :
    scanBucket lsh s query iter cs cl = ([], .ok (cs, cl)) := by
  cases iter <;> simp [scanBucket, hcap]

theorem scanBucket_nil (cs : List String) (cl : List (Record F))
    (hcap : ¬ lsh.config.MaxNN ≤ (cl.length : Int)) :
    scanBucket lsh s query [] cs cl = ([.next], .ok (cs, cl)) := by
  simp [scanBucket, hcap]

theorem scanBucket_seen (id : String) (rest cs : List String) (cl : List (Record F))
    (hcap : ¬ lsh.config.MaxNN ≤ (cl.length : Int)) (hseen : id ∈ cs) :
    scanBucket lsh s query (id :: rest) cs cl =
      (.next :: (scanBucket lsh s query rest cs cl).1,
        (scanBucket lsh s query rest cs cl).2) := by
  simp [scanBucket, hcap, hseen]

theorem scanBucket_fail (id : String) (rest cs : List String) (cl : List (Record F))
    (err : GoError)
    (hcap : ¬ lsh.config.MaxNN ≤ (cl.length : Int)) (hseen : id ∉ cs)
    (hvec : lsh.index.GetVector id s = .error err) :
    scanBucket lsh s query (id :: rest) cs cl = ([.next, .getVector id], .error err) := by
  simp [scanBucket, hcap, hseen, hvec]

theorem scanBucket_near (id : String) (rest cs : List String) (cl : List (Record F))
    (vec : List F)
    (hcap : ¬ lsh.config.MaxNN ≤ (cl.length : Int)) (hseen : id ∉ cs)
    (hvec : lsh.index.GetVector id s = .ok vec)
    (hd : lsh.distanceMetric.GetDist vec query ≤ lsh.config.DistanceThrsh) :
    scanBucket lsh s query (id :: rest) cs cl =
      (.next :: .getVector id ::
        (scanBucket lsh s query rest (id :: cs) (cl ++ [⟨id, vec⟩])).1,
        (scanBucket lsh s query rest (id :: cs) (cl ++ [⟨id, vec⟩])).2) := by
  simp [scanBucket, hcap, hseen, hvec, hd]

theorem scanBucket_far (id : String) (rest cs : List String) (cl : List (Record F))
    (vec : List F)
    (hcap : ¬ lsh.config.MaxNN ≤ (cl.length : Int)) (hseen : id ∉ cs)
    (hvec : lsh.index.GetVector id s = .ok vec)
    (hd : ¬ lsh.distanceMetric.GetDist vec query ≤ lsh.config.DistanceThrsh) :
    scanBucket lsh s query (id :: rest) cs cl =
      (.next :: .getVector id :: (scanBucket lsh s query rest cs cl).1,
        (scanBucket lsh s query rest cs cl).2) := by
  simp [scanBucket, hcap, hseen, hvec, hd]

theorem probe_cap (hashes : List (Int × Nat)) (cs : List String) (cl : List (Record F))
    (hcap : lsh.config.MaxNN ≤ (cl.length : Int)) :
    probe lsh s query hashes cs cl = ([], .ok cl) := by
  rcases hashes with _ | ⟨⟨perm, hash⟩, rest⟩ <;> simp [probe, hcap]

theorem probe_miss (perm : Int) (hash : Nat) (rest : List (Int × Nat)) (cs : List String)
    (cl : List (Record F)) (err : GoError)
    (hcap : ¬ lsh.config.MaxNN ≤ (cl.length : Int))
    (hiter : lsh.index.GetHashIterator perm hash s = .error err) :
    probe lsh s query ((perm, hash) :: rest) cs cl =
      (.getHashIterator perm hash :: (probe lsh s query rest cs cl).1,
        (probe lsh s query rest cs cl).2) := by
  simp [probe, hcap, hiter]

theorem probe_fail (perm : Int) (hash : Nat) (rest : List (Int × Nat)) (cs : List String)
    (cl : List (Record F)) (iter : List String) (calls : List StoreCall) (err : GoError)
    (hcap : ¬ lsh.config.MaxNN ≤ (cl.length : Int))
    (hiter : lsh.index.GetHashIterator perm hash s = .ok iter)
    (hscan : scanBucket lsh s query iter cs cl = (calls, .error err)) :
    probe lsh s query ((perm, hash) :: rest) cs cl =
      (.getHashIterator perm hash :: calls, .error err) := by
  simp [probe, hcap, hiter, hscan]

theorem probe_next (perm : Int) (hash : Nat) (rest : List (Int × Nat)) (cs : List String)
    (cl : List (Record F)) (iter : List String) (calls : List StoreCall)
    (cs1 : List String) (cl1 : List (Record F))
    (hcap : ¬ lsh.config.MaxNN ≤ (cl.length : Int))
    (hiter : lsh.index.GetHashIterator perm hash s = .ok iter)
    (hscan : scanBucket lsh s query iter cs cl = (calls, .ok (cs1, cl1))) :
    probe lsh s query ((perm, hash) :: rest) cs cl =
      (.getHashIterator perm hash :: (calls ++ (probe lsh s query rest cs1 cl1).1),
        (probe lsh s query rest cs1 cl1).2) := by
  simp [probe, hcap, hiter, hscan]

end SearchBranches

/-! ## Search: invariants of the two loops -/

section SearchLemmas

variable {σ F : Type} [LE F] [∀ a b : F, Decidable (a ≤ b)]

/-- A property of `(closestSet, closest)` that every append of the inner loop
keeps is kept by the whole inner loop. -/
theorem scanBucket_preserves (lsh : LSHIndex σ F) (s : σ) (query : List F)
    (P : List String → List (Record F) → Prop)
    (hstep : ∀ id vec cs cl, ¬ lsh.config.MaxNN ≤ (cl.length : Int) → id ∉ cs →
      lsh.index.GetVector id s = .ok vec →
      lsh.distanceMetric.GetDist vec query ≤ lsh.config.DistanceThrsh →
      P cs cl → P (id :: cs) (cl ++ [⟨id, vec⟩])) :
    ∀ (iter : List String) (cs : List String) (cl : List (Record F))
      (out : List String × List (Record F)),
      P cs cl → (scanBucket lsh s query iter cs cl).2 = .ok out → P out.1 out.2 := by
  intro iter
  induction iter with
  | nil =>
    intro cs cl out hP h
    unfold scanBucket at h
    split_ifs at h <;>
    · simp only [Except.ok.injEq] at h
      subst h
      exact hP
  | cons id rest ih =>
    intro cs cl out hP h
    unfold scanBucket at h
    split_ifs at h with hcap hseen
    · simp only [Except.ok.injEq] at h
      subst h
      exact hP
    · exact ih cs cl out hP h
    · split at h
      · cases h
      · rename_i vec hvec
        dsimp only at h
        split_ifs at h with hd
        · exact ih _ _ out (hstep id vec cs cl hcap hseen hvec hd hP) h
        · exact ih cs cl out hP h

/-- A property every append keeps is kept by the outer loop. -/
theorem probe_preserves (lsh : LSHIndex σ F) (s : σ) (query : List F)
    (P : List String → List (Record F) → Prop)
    (hstep : ∀ id vec cs cl, ¬ lsh.config.MaxNN ≤ (cl.length : Int) → id ∉ cs →
      lsh.index.GetVector id s = .ok vec →
      lsh.distanceMetric.GetDist vec query ≤ lsh.config.DistanceThrsh →
      P cs cl → P (id :: cs) (cl ++ [⟨id, vec⟩])) :
    ∀ (hashes : List (Int × Nat)) (cs : List String) (cl res : List (Record F)),
      P cs cl → (probe lsh s query hashes cs cl).2 = .ok res → ∃ cs1, P cs1 res := by
  intro hashes
  induction hashes with
  | nil =>
    intro cs cl res hP h
    simp only [probe, Except.ok.injEq] at h
    subst h
    exact ⟨cs, hP⟩
  | cons ph rest ih =>
    intro cs cl res hP h
    obtain ⟨perm, hash⟩ := ph
    unfold probe at h
    split_ifs at h with hcap
    · simp only [Except.ok.injEq] at h
      subst h
      exact ⟨cs, hP⟩
    · split at h
      · exact ih cs cl res hP h
      · rename_i iter hiter
        split at h
        · cases h
        · rename_i calls cs1 cl1 hscan
          refine ih cs1 cl1 res
            (scanBucket_preserves lsh s query P hstep iter cs cl (cs1, cl1) hP ?_) h
          rw [hscan]

/-- A property every append keeps, true of the empty result, holds of every
list `Search` returns, whatever the range order of the hashes. -/
theorem SearchOn_preserves (lsh : LSHIndex σ F) (s : σ) (query : List F)
    (P : List String → List (Record F) → Prop)
    (hstep : ∀ id vec cs cl, ¬ lsh.config.MaxNN ≤ (cl.length : Int) → id ∉ cs →
      lsh.index.GetVector id s = .ok vec →
      lsh.distanceMetric.GetDist vec query ≤ lsh.config.DistanceThrsh →
      P cs cl → P (id :: cs) (cl ++ [⟨id, vec⟩]))
    (h0 : P [] []) (hashes : List (Int × Nat)) (res : List (Record F))
    (h : (SearchOn lsh s query hashes).2 = .ok res) : ∃ cs1, P cs1 res :=
  probe_preserves lsh s query P hstep hashes [] [] res h0 h

end SearchLemmas

/-! ## Search: cap, threshold, distinct ids -/

section SearchClaims

variable {σ F : Type} [LE F] [∀ a b : F, Decidable (a ≤ b)]

/-- The squared Euclidean distance is symmetric. -/
theorem sqDist_symm (l r : List Int) : sqDist.GetDist l r = sqDist.GetDist r l := by
  show (List.zipWith _ l r).sum = (List.zipWith _ r l).sum
  induction l generalizing r with
  | nil => cases r <;> rfl
  | cons a l ih =>
    cases r with
    | nil => rfl
    | cons b r =>
      simp only [List.zipWith_cons_cons, List.sum_cons, ih r]
      ring

/-- Every record of a list the outer loop returns carries the vector the store
holds for its id, at a distance from the query within the threshold. -/
theorem SearchOn_records_stored (lsh : LSHIndex σ F) (s : σ) (query : List F)
    (hashes : List (Int × Nat)) (res : List (Record F))
    (h : (SearchOn lsh s query hashes).2 = .ok res) (r : Record F) (hr : r ∈ res) :
    lsh.index.GetVector r.ID s = .ok r.Vec ∧
      lsh.distanceMetric.GetDist r.Vec query ≤ lsh.config.DistanceThrsh := by
  obtain ⟨_, hres⟩ := SearchOn_preserves lsh s query
    (fun _ cl => ∀ r ∈ cl, lsh.index.GetVector r.ID s = .ok r.Vec ∧
      lsh.distanceMetric.GetDist r.Vec query ≤ lsh.config.DistanceThrsh)
    (by
      intro id vec cs cl _ _ hvec hd hP r hr
      rcases List.mem_append.mp hr with hr | hr
      · exact hP r hr
      · rw [List.mem_singleton] at hr
        subst hr
        exact ⟨hvec, hd⟩)
    (by intro r hr; cases hr) hashes res h
  exact hres r hr

/-- The ids of a list the outer loop returns are pairwise distinct. -/
theorem SearchOn_ids_nodup (lsh : LSHIndex σ F) (s : σ) (query : List F)
    (hashes : List (Int × Nat)) (res : List (Record F))
    (h : (SearchOn lsh s query hashes).2 = .ok res) : (res.map Record.ID).Nodup := by
  obtain ⟨_, hres⟩ := SearchOn_preserves lsh s query
    (fun cs cl => (cl.map Record.ID).Nodup ∧ ∀ r ∈ cl, r.ID ∈ cs)
    (by
      intro id vec cs cl _ hseen _ _ hP
      refine ⟨?_, ?_⟩
      · rw [List.map_append, List.nodup_append]
        refine ⟨hP.1, by simp, ?_⟩
        intro a ha hb
        simp only [List.map_cons, List.map_nil, List.mem_singleton] at hb
        subst hb
        obtain ⟨r, hr, hid⟩ := List.mem_map.mp ha
        exact hseen (hid ▸ hP.2 r hr)
      · intro r hr
        rcases List.mem_append.mp hr with hr | hr
        · exact List.mem_cons_of_mem _ (hP.2 r hr)
        · rw [List.mem_singleton] at hr
          subst hr
          exact List.mem_cons_self _ _)
    (by simp) hashes res h
  exact hres.1

/-- C1: for every store state, hasher, metric, query and config with
`MaxNN ≥ 0`, a list `Search` returns without error has at most `MaxNN`
records. -/
theorem Search_length_le_MaxNN (lsh : LSHIndex σ F) (s : σ) (query : List F)
    (res : List (Record F)) (hmax : 0 ≤ lsh.config.MaxNN)
    (h : Search lsh s query = .ok res) : (res.length : Int) ≤ lsh.config.MaxNN := by
  obtain ⟨_, hres⟩ := SearchOn_preserves lsh s query
    (fun _ cl => (cl.length : Int) ≤ lsh.config.MaxNN)
    (by
      intro id vec cs cl hcap _ _ _ _
      simp only [List.length_append, List.length_singleton, Nat.cast_add, Nat.cast_one]
      omega)
    (by simpa using hmax) (lsh.hasher.getHashes query) res h
  exact hres

/-- C1 at a concrete index: the bucket holds three ids within the threshold,
`MaxNN` is 2 and two records come back. -/
theorem Search_length_le_MaxNN_witness :
    (([⟨"a", [1, 0]⟩, ⟨"b", [2, 0]⟩] : List (Record Int)).length : Int)
      ≤ demoIndex.config.MaxNN :=
  Search_length_le_MaxNN demoIndex demoState [1, 0] _ (by decide) (by rfl)

/-- C2: with a symmetric metric, every record `r` of a list `Search` returns
without error carries the vector the store holds for `r.ID`, and
`distance(query, r.Vec) ≤ DistanceThrsh`. -/
theorem Search_within_threshold (lsh : LSHIndex σ F) (s : σ) (query : List F)
    (res : List (Record F))
    (hsym : ∀ l r, lsh.distanceMetric.GetDist l r = lsh.distanceMetric.GetDist r l)
    (h : Search lsh s query = .ok res) (r : Record F) (hr : r ∈ res) :
    lsh.index.GetVector r.ID s = .ok r.Vec ∧
      lsh.distanceMetric.GetDist query r.Vec ≤ lsh.config.DistanceThrsh := by
  have hst := SearchOn_records_stored lsh s query (lsh.hasher.getHashes query) res h r hr
  refine ⟨hst.1, ?_⟩
  rw [hsym]
  exact hst.2

/-- C2 at a concrete index: the record `b` is returned and lies at squared
distance 1, the threshold. -/
theorem Search_within_threshold_witness :
    memStore.GetVector "b" demoState = .ok [2, 0] ∧
      sqDist.GetDist [1, 0] [2, 0] ≤ (1 : Int) :=
  Search_within_threshold demoIndex demoState [1, 0] [⟨"a", [1, 0]⟩, ⟨"b", [2, 0]⟩]
    sqDist_symm
    (by rfl) ⟨"b", [2, 0]⟩ (by simp)

/-- C3: the ids of the records of a list `Search` returns without error are
pairwise distinct, whatever the iterators of the store yield. -/
theorem Search_ids_nodup (lsh : LSHIndex σ F) (s : σ) (query : List F)
    (res : List (Record F)) (h : Search lsh s query = .ok res) :
    (res.map Record.ID).Nodup :=
  SearchOn_ids_nodup lsh s query (lsh.hasher.getHashes query) res h

/-- C3 at a concrete index whose bucket iterator yields `b` twice. -/
theorem Search_ids_nodup_witness :
    (([⟨"a", [1, 0]⟩, ⟨"b", [2, 0]⟩] : List (Record Int)).map Record.ID).Nodup :=
  Search_ids_nodup demoIndex demoState [1, 0] _ (by rfl)

end SearchClaims

/-! ## Search: which store errors surface -/

section SearchErrors

variable {σ F : Type} [LE F] [∀ a b : F, Decidable (a ≤ b)]

/-- The inner loop ends with error `e` exactly when one of its `GetVector` calls
failed with `e`. -/
theorem scanBucket_error_iff (lsh : LSHIndex σ F) (s : σ) (query : List F)
    (e : GoError) :
    ∀ (iter : List String) (cs : List String) (cl : List (Record F)),
      (scanBucket lsh s query iter cs cl).2 = .error e ↔
      ∃ id, StoreCall.getVector id ∈ (scanBucket lsh s query iter cs cl).1 ∧
        lsh.index.GetVector id s = .error e := by
  intro iter
  induction iter with
  | nil =>
    intro cs cl
    by_cases hcap : lsh.config.MaxNN ≤ (cl.length : Int)
    · simp [scanBucket_cap lsh s query [] cs cl hcap]
    · simp [scanBucket_nil lsh s query cs cl hcap]
  | cons id0 rest ih =>
    intro cs cl
    by_cases hcap : lsh.config.MaxNN ≤ (cl.length : Int)
    · simp [scanBucket_cap lsh s query _ cs cl hcap]
    by_cases hseen : id0 ∈ cs
    · rw [scanBucket_seen lsh s query id0 rest cs cl hcap hseen]
      simp only [List.mem_cons, reduceCtorEq, false_or]
      exact ih cs cl
    rcases hvec : lsh.index.GetVector id0 s with err | vec
    · rw [scanBucket_fail lsh s query id0 rest cs cl err hcap hseen hvec]
      constructor
      · intro h
        simp only [Except.error.injEq] at h
        subst h
        exact ⟨id0, by simp, hvec⟩
      · rintro ⟨id, hid, hv⟩
        simp only [List.mem_cons, reduceCtorEq, StoreCall.getVector.injEq, false_or,
          List.mem_nil_iff, or_false] at hid
        subst hid
        rw [hvec] at hv
        cases hv
        rfl
    · have key : ∀ cs1 cl1,
          ((scanBucket lsh s query rest cs1 cl1).2 = .error e ↔
          ∃ id, StoreCall.getVector id ∈
              StoreCall.next :: StoreCall.getVector id0 ::
                (scanBucket lsh s query rest cs1 cl1).1 ∧
            lsh.index.GetVector id s = .error e) := by
        intro cs1 cl1
        rw [ih cs1 cl1]
        constructor
        · rintro ⟨id, hid, hv⟩
          exact ⟨id, List.mem_cons_of_mem _ (List.mem_cons_of_mem _ hid), hv⟩
        · rintro ⟨id, hid, hv⟩
          simp only [List.mem_cons, reduceCtorEq, StoreCall.getVector.injEq, false_or] at hid
          rcases hid with hid | hid
          · subst hid
            rw [hvec] at hv
            cases hv
          · exact ⟨id, hid, hv⟩
      by_cases hd : lsh.distanceMetric.GetDist vec query ≤ lsh.config.DistanceThrsh
      · rw [scanBucket_near lsh s query id0 rest cs cl vec hcap hseen hvec hd]
        exact key _ _
      · rw [scanBucket_far lsh s query id0 rest cs cl vec hcap hseen hvec hd]
        exact key _ _

/-- The outer loop returns error `e` exactly when one of its `GetVector` calls
failed with `e`; what `GetHashIterator` answers plays no part. -/
theorem probe_error_iff (lsh : LSHIndex σ F) (s : σ) (query : List F)
    (e : GoError) :
    ∀ (hashes : List (Int × Nat)) (cs : List String) (cl : List (Record F)),
      (probe lsh s query hashes cs cl).2 = .error e ↔
      ∃ id, StoreCall.getVector id ∈ (probe lsh s query hashes cs cl).1 ∧
        lsh.index.GetVector id s = .error e := by
  intro hashes
  induction hashes with
  | nil =>
    intro cs cl
    simp [probe]
  | cons ph rest ih =>
    intro cs cl
    obtain ⟨perm, hash⟩ := ph
    by_cases hcap : lsh.config.MaxNN ≤ (cl.length : Int)
    · simp [probe_cap lsh s query _ cs cl hcap]
    rcases hiter : lsh.index.GetHashIterator perm hash s with err | iter
    · rw [probe_miss lsh s query perm hash rest cs cl err hcap hiter]
      simp only [List.mem_cons, reduceCtorEq, false_or]
      exact ih cs cl
    · have hscan := scanBucket_error_iff lsh s query e iter cs cl
      rcases hsc : scanBucket lsh s query iter cs cl with ⟨calls, err | ⟨cs1, cl1⟩⟩
      · rw [probe_fail lsh s query perm hash rest cs cl iter calls err hcap hiter hsc]
        rw [hsc] at hscan
        simpa using hscan
      · rw [probe_next lsh s query perm hash rest cs cl iter calls cs1 cl1 hcap hiter hsc]
        rw [hsc] at hscan
        simp only [List.mem_cons, reduceCtorEq, false_or, List.mem_append]
        rw [ih cs1 cl1]
        constructor
        · rintro ⟨id, hid, hv⟩
          exact ⟨id, Or.inr hid, hv⟩
        · rintro ⟨id, hid | hid, hv⟩
          · exact absurd (hscan.mpr ⟨id, hid, hv⟩) (by simp)
          · exact ⟨id, hid, hv⟩

/-- C8 (amended): `Search` returns the error of a failed `GetVector` call
unchanged, and it returns no other error: a failure of `GetHashIterator`,
bucket miss or not, is skipped like a miss. -/
theorem Search_error_iff_GetVector_failed (lsh : LSHIndex σ F) (s : σ) (query : List F)
    (e : GoError) :
    Search lsh s query = .error e ↔
      ∃ id, StoreCall.getVector id ∈ SearchCalls lsh s query ∧
        lsh.index.GetVector id s = .error e :=
  probe_error_iff lsh s query e (lsh.hasher.getHashes query) [] []

/-- C8 as stated fails: `GetHashIterator` is called and fails with a store
failure that is not the miss signal, and `Search` returns the empty list
instead of that error. -/
theorem Search_swallows_iterator_failure :
    StoreCall.getHashIterator 0 1 ∈ SearchCalls downIndex () [1, 0] ∧
      downStore.GetHashIterator 0 1 () = .error (GoError.storeFailure 2) ∧
      GoError.storeFailure 2 ≠ GoError.notFound ∧
      Search downIndex () [1, 0] = .ok [] := by
  refine ⟨by decide, rfl, by decide, rfl⟩

/-- C8 (amended) at a store whose bucket yields an id without a vector: the
miss of `GetVector` is what `Search` returns. -/
theorem Search_error_iff_GetVector_failed_witness :
    Search demoIndex danglingState [1, 0] = .error GoError.notFound :=
  (Search_error_iff_GetVector_failed demoIndex danglingState [1, 0] GoError.notFound).mpr
    ⟨"zz", by decide, rfl⟩

end SearchErrors

/-! ## Train: batches, wait count and return value -/

section TrainBatching

variable {σ F : Type}

/-- One iteration of the loop when `i` is inside the slice and the batch is
cut short by the end of the slice. -/
theorem batchLoop_last (records : List (Record F)) (b fuel i : Nat)
    (hi : i < records.length) (hlast : records.length < i + b) :
    batchLoop records b (fuel + 1) i =
      (records.drop i).take (records.length - i) :: batchLoop records b fuel (i + b) := by
  simp [batchLoop, hi, hlast]

/-- One iteration of the loop when a whole batch fits. -/
theorem batchLoop_full (records : List (Record F)) (b fuel i : Nat)
    (hi : i < records.length) (hlast : ¬ records.length < i + b) :
    batchLoop records b (fuel + 1) i =
      (records.drop i).take b :: batchLoop records b fuel (i + b) := by
  simp [batchLoop, hi, hlast]

/-- The loop stops when `i` has reached the length. -/
theorem batchLoop_done (records : List (Record F)) (b fuel i : Nat)
    (hi : ¬ i < records.length) : batchLoop records b fuel i = [] := by
  cases fuel <;> simp [batchLoop, hi]

/-- With enough iterations allowed the loop starts `⌈(n - i) / b⌉` workers from
index `i` on. -/
theorem batchLoop_length (records : List (Record F)) (b : Nat) (hb : 0 < b) :
    ∀ (fuel i : Nat), records.length - i ≤ fuel →
      (batchLoop records b fuel i).length = (records.length - i + b - 1) / b := by
  intro fuel
  induction fuel with
  | zero =>
    intro i hfuel
    have h0 : records.length - i + b - 1 = b - 1 := by omega
    rw [batchLoop_done records b 0 i (by omega), h0, Nat.div_eq_of_lt (by omega)]
    rfl
  | succ fuel ih =>
    intro i hfuel
    by_cases hi : i < records.length
    · by_cases hlast : records.length < i + b
      · rw [batchLoop_last records b fuel i hi hlast, List.length_cons,
          ih (i + b) (by omega)]
        have h1 : records.length - (i + b) + b - 1 = b - 1 := by omega
        have h2 : records.length - i + b - 1 = (records.length - i - 1) + b := by omega
        rw [h1, Nat.div_eq_of_lt (by omega), h2, Nat.add_div_right _ hb,
          Nat.div_eq_of_lt (by omega)]
      · rw [batchLoop_full records b fuel i hi hlast, List.length_cons,
          ih (i + b) (by omega)]
        have h2 : records.length - i + b - 1 = (records.length - (i + b) + b - 1) + b := by
          omega
        rw [h2, Nat.add_div_right _ hb]
    · have h0 : records.length - i + b - 1 = b - 1 := by omega
      rw [batchLoop_done records b _ i hi, h0, Nat.div_eq_of_lt (by omega)]
      rfl

/-- Train starts `⌈n / b⌉` workers. -/
theorem trainBatches_length (records : List (Record F)) (b : Nat) (hb : 0 < b) :
    (trainBatches records b).length = (records.length + b - 1) / b := by
  have h := batchLoop_length records b hb records.length 0 (by omega)
  simpa [trainBatches] using h

/-- With enough iterations allowed the batches from index `i` on, put end to
end, are the records from `i` on. -/
theorem batchLoop_flatten (records : List (Record F)) (b : Nat) (hb : 0 < b) :
    ∀ (fuel i : Nat), records.length - i ≤ fuel →
      (batchLoop records b fuel i).flatten = records.drop i := by
  intro fuel
  induction fuel with
  | zero =>
    intro i hfuel
    rw [batchLoop_done records b 0 i (by omega), List.drop_eq_nil_of_le (by omega)]
    rfl
  | succ fuel ih =>
    intro i hfuel
    by_cases hi : i < records.length
    · by_cases hlast : records.length < i + b
      · have hd : records.drop (i + b) = [] := List.drop_eq_nil_of_le (by omega)
        rw [batchLoop_last records b fuel i hi hlast, List.flatten_cons,
          ih (i + b) (by omega), hd, List.append_nil]
        exact List.take_of_length_le (by simp)
      · rw [batchLoop_full records b fuel i hi hlast, List.flatten_cons,
          ih (i + b) (by omega), ← List.drop_drop]
        exact List.take_append_drop b (records.drop i)
    · rw [batchLoop_done records b _ i hi, List.drop_eq_nil_of_le (by omega)]
      rfl

/-- The batches of Train, in dispatch order, put end to end are the input. -/
theorem trainBatches_flatten (records : List (Record F)) (b : Nat) (hb : 0 < b) :
    (trainBatches records b).flatten = records := by
  have h := batchLoop_flatten records b hb records.length 0 (by omega)
  simpa [trainBatches] using h

/-- A record is in some batch exactly when it is in the input. -/
theorem mem_trainBatches (records : List (Record F)) (b : Nat) (hb : 0 < b)
    (r : Record F) : (∃ batch ∈ trainBatches records b, r ∈ batch) ↔ r ∈ records := by
  conv_rhs => rw [← trainBatches_flatten records b hb]
  rw [List.mem_flatten]

/-- What a successful return of Train with a positive batch size says: `Clear`
succeeded, the wait count was the number of workers, and the store is the one
the workers left. -/
theorem Train_returned_nil (lsh : LSHIndex σ F) (sched : List Nat)
    (records : List (Record F)) (s s1 : σ) (hb : 0 < lsh.config.BatchSize)
    (h : Train lsh sched records s = .returned none s1) :
    ∃ s0, lsh.index.Clear s = (none, s0) ∧
      waitCount records.length lsh.config.BatchSize =
        (trainBatches records lsh.config.BatchSize.toNat).length ∧
      s1 = runWorkers lsh.index sched
        ((trainBatches records lsh.config.BatchSize.toNat).map (workerOps lsh.hasher)) s0 := by
  unfold Train at h
  rcases hclear : lsh.index.Clear s with ⟨_ | err, s0⟩
  · rw [hclear] at h
    dsimp only at h
    rw [if_neg (by omega), if_neg (by omega)] at h
    split_ifs at h with h1 h2
    simp only [TrainResult.returned.injEq, true_and] at h
    exact ⟨s0, rfl, h1, h.symm⟩
  · rw [hclear] at h
    simp at h

/-- C7 (amended): Train returns an error exactly when `Clear` fails, and the
error is the one `Clear` gave; after a successful `Clear` the results of
`SetVector` and `SetHash` are discarded, and Train returns success as soon as
its wait count equals the number of workers. -/
theorem Train_error_iff_Clear_failed (lsh : LSHIndex σ F) (sched : List Nat)
    (records : List (Record F)) (s : σ) :
    (∀ e s1, Train lsh sched records s = .returned (some e) s1 ↔
      lsh.index.Clear s = (some e, s1)) ∧
    (∀ s0, lsh.index.Clear s = (none, s0) → 0 < lsh.config.BatchSize →
      waitCount records.length lsh.config.BatchSize =
        (trainBatches records lsh.config.BatchSize.toNat).length →
      Train lsh sched records s = .returned none
        (runWorkers lsh.index sched
          ((trainBatches records lsh.config.BatchSize.toNat).map (workerOps lsh.hasher)) s0)) := by
  constructor
  · intro e s1
    unfold Train
    rcases hclear : lsh.index.Clear s with ⟨_ | err, s0⟩
    · dsimp only
      constructor
      · intro h
        split_ifs at h <;> simp at h
      · intro h
        simp at h
    · simp
  · intro s0 hclear hb hcount
    unfold Train
    rw [hclear]
    dsimp only
    rw [if_neg (by omega), if_neg (by omega), if_pos hcount]

/-- C7 as stated fails: the `SetVector` call Train makes for the record fails,
and Train returns success. -/
theorem Train_ignores_write_errors :
    StoreOp.setVector "a" [1, 0] ∈
        ((trainBatches [(⟨"a", [1, 0]⟩ : Record Int)] 1).map (workerOps signHasher)).flatten ∧
      (downStore.SetVector "a" [1, 0] ()).1 = some (GoError.storeFailure 1) ∧
      Train downIndex [] [⟨"a", [1, 0]⟩] () = .returned none () := by
  refine ⟨by decide, rfl, rfl⟩

/-- C10 fails on the code: for 5 records and batches of 3 Train registers
`5/3 + 5%3 = 3` completions and starts `⌈5/3⌉ = 2` workers, so its wait never
finishes. -/
theorem Train_wait_count_mismatch :
    waitCount (fiveRecords.length : Int) 3 = 3 ∧
      (trainBatches fiveRecords 3).length = 2 ∧
      (fiveRecords.length + 3 - 1) / 3 = 2 ∧
      ∃ s, Train batch3Index [] fiveRecords emptyState = .blocked s := by
  refine ⟨by decide, by decide, by decide, ⟨_, rfl⟩⟩

end TrainBatching

section WaitCount

variable {F : Type}

/-- For a positive batch size the wait count of line 77 equals the number of
workers started exactly when the remainder `len % batchSize` is 0 or 1. -/
theorem waitCount_eq_started_iff (records : List (Record F)) (b : Nat) (hb : 0 < b) :
    waitCount (records.length : Int) (b : Int) = ((trainBatches records b).length : Int) ↔
      records.length % b ≤ 1 := by
  rw [trainBatches_length records b hb]
  have hw : waitCount (records.length : Int) (b : Int) =
      ((records.length / b + records.length % b : Nat) : Int) := by
    unfold waitCount
    rw [← Int.ofNat_tdiv, ← Int.ofNat_tmod]
    push_cast
    rfl
  rw [hw, Nat.cast_inj]
  have hdm := Nat.div_add_mod records.length b
  have hlt := Nat.mod_lt records.length hb
  generalize records.length / b = q at *
  generalize records.length % b = r at *
  generalize records.length = n at *
  subst hdm
  by_cases hr : r = 0
  · subst hr
    have h1 : b * q + 0 + b - 1 = b - 1 + b * q := by omega
    rw [h1, Nat.add_mul_div_left _ _ hb, Nat.div_eq_of_lt (by omega)]
    omega
  · have h1 : b * q + r + b - 1 = r - 1 + b * (q + 1) := by
      rw [Nat.mul_add, Nat.mul_one]
      omega
    rw [h1, Nat.add_mul_div_left _ _ hb, Nat.div_eq_of_lt (by omega)]
    omega

end WaitCount

/-! ## Train: invariants of the concurrent workers -/

section WorkerRuns

variable {σ F : Type}

/-- Running the remaining calls worker by worker keeps an invariant that every
single store call keeps. -/
theorem drainWorkers_invariant (store : Store σ F)
    (I : List (List (StoreOp F)) → σ → Prop)
    (hstep : ∀ pre op rest post s, I (pre ++ (op :: rest) :: post) s →
      I (pre ++ rest :: post) (applyOp store op s)) :
    ∀ (ws pre : List (List (StoreOp F))) (s : σ), (∀ w ∈ pre, w = []) → I (pre ++ ws) s →
      ∃ done, (∀ w ∈ done, w = []) ∧
        I done (ws.flatten.foldl (fun st op => applyOp store op st) s) := by
  intro ws
  induction ws with
  | nil =>
    intro pre s hpre hI
    exact ⟨pre, hpre, by simpa using hI⟩
  | cons w ws ih =>
    induction w with
    | nil =>
      intro pre s hpre hI
      have h := ih (pre ++ [[]]) s
        (by
          intro w hw
          rcases List.mem_append.mp hw with hw | hw
          · exact hpre w hw
          · simpa using hw)
        (by simpa using hI)
      simpa using h
    | cons op rest ihw =>
      intro pre s hpre hI
      have h := ihw pre (applyOp store op s) hpre (hstep pre op rest ws s hI)
      simpa using h

/-- Every run of the workers keeps an invariant that every single store call
keeps, and ends with all workers finished. -/
theorem runWorkers_invariant (store : Store σ F)
    (I : List (List (StoreOp F)) → σ → Prop)
    (hstep : ∀ pre op rest post s, I (pre ++ (op :: rest) :: post) s →
      I (pre ++ rest :: post) (applyOp store op s)) :
    ∀ (sched : List Nat) (ws : List (List (StoreOp F))) (s : σ), I ws s →
      ∃ done, (∀ w ∈ done, w = []) ∧ I done (runWorkers store sched ws s) := by
  intro sched
  induction sched with
  | nil =>
    intro ws s hI
    exact drainWorkers_invariant store I hstep ws [] s (by simp) (by simpa using hI)
  | cons k sched ih =>
    intro ws s hI
    unfold runWorkers
    rcases hk : ws.get? k with _ | w
    · exact ih ws s hI
    · rcases w with _ | ⟨op, rest⟩
      · exact ih ws s hI
      · dsimp only
        obtain ⟨hlt, hget⟩ := List.get?_eq_some.mp hk
        have hset : ws.set k rest = ws.take k ++ rest :: ws.drop (k + 1) := by
          rw [List.set_eq_take_append_cons_drop, if_pos hlt]
        have hws : ws = ws.take k ++ (op :: rest) :: ws.drop (k + 1) := by
          have h1 : ws.drop k = (op :: rest) :: ws.drop (k + 1) := by
            rw [List.drop_eq_getElem_cons hlt, ← hget, List.get_eq_getElem]
          rw [← h1, List.take_append_drop]
        rw [hset]
        apply ih
        apply hstep
        rw [← hws]
        exact hI

/-- Workers without calls leave the store as it is. -/
theorem runWorkers_nil (store : Store σ F) (sched : List Nat) (s : σ) :
    runWorkers store sched [] s = s := by
  induction sched with
  | nil => rfl
  | cons k sched ih => simpa [runWorkers] using ih

end WorkerRuns

/-! ## Train on a store that keeps the contract -/

section MemStoreLemmas

variable {F : Type}

theorem memStore_setVector_buckets (id : String) (vec : List F) (s : MemState F) :
    (applyOp memStore (.setVector id vec) s).buckets = s.buckets := rfl

theorem memStore_setVector_vectors (id : String) (vec : List F) (s : MemState F)
    (k : String) :
    (applyOp memStore (.setVector id vec) s).vectors k =
      if k = id then some vec else s.vectors k := rfl

theorem memStore_setHash_vectors (perm : Int) (hash : Nat) (id : String)
    (s : MemState F) :
    (applyOp memStore (.setHash perm hash id) s).vectors = s.vectors := rfl

/-- After `SetHash(perm, hash, id)` a bucket holds what it held, and the bucket
`(perm, hash)` holds `id` as well. -/
theorem memStore_setHash_mem (perm : Int) (hash : Nat) (id : String) (s : MemState F)
    (p : Int) (h : Nat) (k : String) :
    k ∈ (applyOp memStore (.setHash perm hash id) s).buckets p h ↔
      k ∈ s.buckets p h ∨ (p = perm ∧ h = hash ∧ k = id) := by
  show k ∈ (if p = perm ∧ h = hash then
      (if id ∈ s.buckets p h then s.buckets p h else s.buckets p h ++ [id])
    else s.buckets p h) ↔ _
  by_cases hph : p = perm ∧ h = hash
  · rw [if_pos hph]
    by_cases hin : id ∈ s.buckets p h
    · rw [if_pos hin]
      constructor
      · exact Or.inl
      · rintro (hk | ⟨_, _, hk⟩)
        · exact hk
        · rw [hk]
          exact hin
    · rw [if_neg hin, List.mem_append, List.mem_singleton]
      constructor
      · rintro (hk | hk)
        · exact Or.inl hk
        · exact Or.inr ⟨hph.1, hph.2, hk⟩
      · rintro (hk | ⟨_, _, hk⟩)
        · exact Or.inl hk
        · exact Or.inr hk
  · rw [if_neg hph]
    constructor
    · exact Or.inl
    · rintro (hk | ⟨h1, h2, _⟩)
      · exact hk
      · exact absurd ⟨h1, h2⟩ hph

/-- A worker of the stepped configuration holds only calls that a worker of
the configuration before the step held. -/
theorem mem_workers_of_step (pre post : List (List (StoreOp F))) (op : StoreOp F)
    (rest w : List (StoreOp F)) (hw : w ∈ pre ++ rest :: post) :
    ∃ w0 ∈ pre ++ (op :: rest) :: post, ∀ o ∈ w, o ∈ w0 := by
  rcases List.mem_append.mp hw with hw | hw
  · exact ⟨w, List.mem_append_left _ hw, fun o ho => ho⟩
  · rcases List.mem_cons.mp hw with hw | hw
    · subst hw
      exact ⟨op :: w, List.mem_append_right _ (List.mem_cons_self _ _),
        fun o ho => List.mem_cons_of_mem _ ho⟩
    · exact ⟨w, List.mem_append_right _ (List.mem_cons_of_mem _ hw), fun o ho => ho⟩

/-- A call pending before the step is the call made or is still pending. -/
theorem pending_after_step (pre post : List (List (StoreOp F))) (op o : StoreOp F)
    (rest : List (StoreOp F))
    (h : ∃ w ∈ pre ++ (op :: rest) :: post, o ∈ w) :
    o = op ∨ ∃ w ∈ pre ++ rest :: post, o ∈ w := by
  obtain ⟨w, hw, ho⟩ := h
  rcases List.mem_append.mp hw with hw | hw
  · exact Or.inr ⟨w, List.mem_append_left _ hw, ho⟩
  · rcases List.mem_cons.mp hw with hw | hw
    · subst hw
      rcases List.mem_cons.mp ho with ho | ho
      · exact Or.inl ho
      · exact Or.inr ⟨rest, List.mem_append_right _ (List.mem_cons_self _ _), ho⟩
    · exact Or.inr ⟨w, List.mem_append_right _ (List.mem_cons_of_mem _ hw), ho⟩

/-- Every call of a worker stems from a record of its batch. -/
theorem workerOps_from (hasher : Hasher F) (batch : List (Record F)) (op : StoreOp F)
    (hop : op ∈ workerOps hasher batch) : OpFrom hasher batch op := by
  unfold workerOps at hop
  obtain ⟨r, hr, hop⟩ := List.mem_flatMap.mp hop
  rcases List.mem_cons.mp hop with hop | hop
  · subst hop
    exact hr
  · obtain ⟨ph, hph, hop⟩ := List.mem_map.mp hop
    subst hop
    exact ⟨r, hr, rfl, hph⟩

/-- Every call of every worker of Train stems from an input record. -/
theorem trainWorkers_from (hasher : Hasher F) (records : List (Record F)) (b : Nat)
    (hb : 0 < b) (w : List (StoreOp F))
    (hw : w ∈ (trainBatches records b).map (workerOps hasher)) (op : StoreOp F)
    (hop : op ∈ w) : OpFrom hasher records op := by
  obtain ⟨batch, hbatch, hw⟩ := List.mem_map.mp hw
  subst hw
  have hsub : ∀ r ∈ batch, r ∈ records := fun r hr =>
    (mem_trainBatches records b hb r).mp ⟨batch, hbatch, hr⟩
  have h := workerOps_from hasher batch op hop
  cases op with
  | setVector id vec => exact hsub _ h
  | setHash perm hash id =>
    obtain ⟨r, hr, hid, hph⟩ := h
    exact ⟨r, hsub r hr, hid, hph⟩

/-- Every input record has a worker that writes its vector and its id under
each of its hashes. -/
theorem trainWorkers_cover (hasher : Hasher F) (records : List (Record F)) (b : Nat)
    (hb : 0 < b) (r : Record F) (hr : r ∈ records) :
    ∃ w ∈ (trainBatches records b).map (workerOps hasher),
      StoreOp.setVector r.ID r.Vec ∈ w ∧
        ∀ ph ∈ hasher.getHashes r.Vec, StoreOp.setHash ph.1 ph.2 r.ID ∈ w := by
  obtain ⟨batch, hbatch, hrb⟩ := (mem_trainBatches records b hb r).mpr hr
  refine ⟨workerOps hasher batch, List.mem_map_of_mem _ hbatch, ?_, ?_⟩
  · exact List.mem_flatMap.mpr ⟨r, hrb, List.mem_cons_self _ _⟩
  · intro ph hph
    exact List.mem_flatMap.mpr
      ⟨r, hrb, List.mem_cons_of_mem _ (List.mem_map.mpr ⟨ph, hph, rfl⟩)⟩

end MemStoreLemmas

section TrainOrigin

variable {F : Type}

/-- On the contract store, if the store and the pending calls hold only ids and
vectors of the records, so does the store the workers leave. -/
theorem runWorkers_origin (hasher : Hasher F) (records : List (Record F))
    (sched : List Nat) (ws : List (List (StoreOp F))) (s : MemState F)
    (hbk : ∀ p h id, id ∈ s.buckets p h → ∃ r ∈ records, r.ID = id)
    (hvec : ∀ id vec, s.vectors id = some vec → (⟨id, vec⟩ : Record F) ∈ records)
    (hws : ∀ w ∈ ws, ∀ op ∈ w, OpFrom hasher records op) :
    (∀ p h id, id ∈ (runWorkers memStore sched ws s).buckets p h →
        ∃ r ∈ records, r.ID = id) ∧
      (∀ id vec, (runWorkers memStore sched ws s).vectors id = some vec →
        (⟨id, vec⟩ : Record F) ∈ records) := by
  obtain ⟨done, _, h1, h2, _⟩ := runWorkers_invariant memStore
    (fun ws s =>
      (∀ p h id, id ∈ s.buckets p h → ∃ r ∈ records, r.ID = id) ∧
      (∀ id vec, s.vectors id = some vec → (⟨id, vec⟩ : Record F) ∈ records) ∧
      (∀ w ∈ ws, ∀ op ∈ w, OpFrom hasher records op))
    (by
      rintro pre op rest post s ⟨hb, hv, hw⟩
      have hop : OpFrom hasher records op :=
        hw _ (List.mem_append_right _ (List.mem_cons_self _ _)) op (List.mem_cons_self _ _)
      refine ⟨?_, ?_, ?_⟩
      · intro p h id hid
        cases op with
        | setVector id0 vec0 =>
          rw [memStore_setVector_buckets] at hid
          exact hb p h id hid
        | setHash perm hash id0 =>
          rcases (memStore_setHash_mem perm hash id0 s p h id).mp hid with hid | ⟨_, _, hid⟩
          · exact hb p h id hid
          · obtain ⟨r, hr, hrid, _⟩ := hop
            exact ⟨r, hr, by rw [hrid, hid]⟩
      · intro id vec hid
        cases op with
        | setVector id0 vec0 =>
          rw [memStore_setVector_vectors] at hid
          split_ifs at hid with hk
          · simp only [Option.some.injEq] at hid
            subst hid
            subst hk
            exact hop
          · exact hv id vec hid
        | setHash perm hash id0 =>
          rw [memStore_setHash_vectors] at hid
          exact hv id vec hid
      · intro w hw1 o ho
        obtain ⟨w0, hw0, hsub⟩ := mem_workers_of_step pre post op rest w hw1
        exact hw w0 hw0 o (hsub o ho))
    sched ws s ⟨hbk, hvec, hws⟩
  exact ⟨h1, h2⟩

/-- C5: for every prior store state, record list and positive batch size,
after Train returns success on a store that keeps the contract, every id held in
any bucket `(permutation, signature)` is the id of an input record. -/
theorem Train_no_stale_ids (lsh : LSHIndex (MemState F) F) (hstore : lsh.index = memStore)
    (sched : List Nat) (records : List (Record F)) (s s1 : MemState F)
    (hb : 0 < lsh.config.BatchSize)
    (h : Train lsh sched records s = .returned none s1)
    (perm : Int) (hash : Nat) (id : String) (hid : id ∈ s1.buckets perm hash) :
    ∃ r ∈ records, r.ID = id := by
  obtain ⟨s0, hclear, _, hs1⟩ := Train_returned_nil lsh sched records s s1 hb h
  rw [hstore] at hclear hs1
  have hs0 : s0 = ⟨fun _ _ => [], fun _ => none⟩ := (Prod.mk.inj hclear).2.symm
  subst hs0
  have hfacts := runWorkers_origin lsh.hasher records sched
    ((trainBatches records lsh.config.BatchSize.toNat).map (workerOps lsh.hasher))
    ⟨fun _ _ => [], fun _ => none⟩
    (by intro p h id hid; cases hid)
    (by intro id vec hid; cases hid)
    (trainWorkers_from lsh.hasher records _ (by omega))
  rw [← hs1] at hfacts
  exact hfacts.1 perm hash id hid

end TrainOrigin

section TrainVectors

variable {F : Type}

/-- C5 at a store that held `a`, `b`, `c` before Train of `d` and `e`: the id
found in bucket `(0, 1)` afterwards is the id of the input record `d`. -/
theorem Train_no_stale_ids_witness : ∃ r ∈ twoRecords, r.ID = "d" :=
  Train_no_stale_ids demoIndex rfl [1, 0, 1] twoRecords demoState retrainedState
    (by decide) rfl 0 1 "d" (by decide)

theorem vecFirst_mono (known known1 : String → Prop) (h : ∀ k, known k → known1 k) :
    ∀ (w : List (StoreOp F)), vecFirst known w → vecFirst known1 w := by
  intro w
  induction w generalizing known known1 with
  | nil => intro _; trivial
  | cons op rest ih =>
    intro hw
    cases op with
    | setVector id vec =>
      exact ih (fun k => k = id ∨ known k) (fun k => k = id ∨ known1 k)
        (fun k hk => hk.imp_right (h k)) hw
    | setHash perm hash id =>
      exact ⟨h id hw.1, ih known known1 h hw.2⟩

theorem vecFirst_setHashes (known : String → Prop) (id : String) (hid : known id)
    (rest : List (StoreOp F)) (hrest : vecFirst known rest) :
    ∀ (hashes : List (Int × Nat)),
      vecFirst known (hashes.map (fun ph => StoreOp.setHash ph.1 ph.2 id) ++ rest) := by
  intro hashes
  induction hashes with
  | nil => exact hrest
  | cons ph hashes ih => exact ⟨hid, ih⟩

/-- A worker writes the vector of a record before it puts the id of the record
into a bucket. -/
theorem vecFirst_workerOps (hasher : Hasher F) :
    ∀ (batch : List (Record F)) (known : String → Prop),
      vecFirst known (workerOps hasher batch) := by
  intro batch
  induction batch with
  | nil => intro known; trivial
  | cons r batch ih =>
    intro known
    show vecFirst known
      ((StoreOp.setVector r.ID r.Vec ::
        (hasher.getHashes r.Vec).map fun ph => StoreOp.setHash ph.1 ph.2 r.ID) ++
          workerOps hasher batch)
    exact vecFirst_setHashes _ r.ID (Or.inl rfl) _ (ih _) _

/-- On the contract store, if every id in a bucket has a vector and every
worker writes vectors first, every id in a bucket of the store the workers leave
has a vector. -/
theorem runWorkers_vectors_first (sched : List Nat) (ws : List (List (StoreOp F)))
    (s : MemState F)
    (hbk : ∀ p h id, id ∈ s.buckets p h → (s.vectors id).isSome = true)
    (hws : ∀ w ∈ ws, vecFirst (fun k => (s.vectors k).isSome = true) w) :
    ∀ p h id, id ∈ (runWorkers memStore sched ws s).buckets p h →
      ((runWorkers memStore sched ws s).vectors id).isSome = true := by
  obtain ⟨done, _, h1, _⟩ := runWorkers_invariant memStore
    (fun ws s =>
      (∀ p h id, id ∈ s.buckets p h → (s.vectors id).isSome = true) ∧
      (∀ w ∈ ws, vecFirst (fun k => (s.vectors k).isSome = true) w))
    (by
      rintro pre op rest post s ⟨hb, hw⟩
      have hop := hw _ (List.mem_append_right _ (List.mem_cons_self _ _))
      have hgrow : ∀ k, (s.vectors k).isSome = true →
          ((applyOp memStore op s).vectors k).isSome = true := by
        intro k hk
        cases op with
        | setVector id0 vec0 =>
          rw [memStore_setVector_vectors]
          split_ifs
          · rfl
          · exact hk
        | setHash perm hash id0 => exact hk
      refine ⟨?_, ?_⟩
      · intro p h id hid
        cases op with
        | setVector id0 vec0 =>
          rw [memStore_setVector_buckets] at hid
          exact hgrow id (hb p h id hid)
        | setHash perm hash id0 =>
          rcases (memStore_setHash_mem perm hash id0 s p h id).mp hid with hid | ⟨_, _, hid⟩
          · exact hb p h id hid
          · rw [hid]
            exact hop.1
      · intro w hw1
        rcases List.mem_append.mp hw1 with hw1 | hw1
        · exact vecFirst_mono _ _ hgrow w (hw w (List.mem_append_left _ hw1))
        · rcases List.mem_cons.mp hw1 with hw1 | hw1
          · subst hw1
            cases op with
            | setVector id0 vec0 =>
              refine vecFirst_mono _ _ ?_ w hop
              intro k hk
              rw [memStore_setVector_vectors]
              split_ifs with hk0
              · rfl
              · exact hk.resolve_left hk0
            | setHash perm hash id0 => exact hop.2
          · exact vecFirst_mono _ _ hgrow w
              (hw w (List.mem_append_right _ (List.mem_cons_of_mem _ hw1))))
    sched ws s ⟨hbk, hws⟩
  exact h1

/-- C6: for every prior store state, record list and positive batch size,
after Train returns success on a store that keeps the contract, `GetVector(id)`
succeeds for every id held in any bucket. -/
theorem Train_bucket_ids_have_vectors (lsh : LSHIndex (MemState F) F)
    (hstore : lsh.index = memStore) (sched : List Nat) (records : List (Record F))
    (s s1 : MemState F) (hb : 0 < lsh.config.BatchSize)
    (h : Train lsh sched records s = .returned none s1)
    (perm : Int) (hash : Nat) (id : String) (hid : id ∈ s1.buckets perm hash) :
    ∃ vec, lsh.index.GetVector id s1 = .ok vec := by
  obtain ⟨s0, hclear, _, hs1⟩ := Train_returned_nil lsh sched records s s1 hb h
  rw [hstore] at hclear hs1 ⊢
  have hs0 : s0 = ⟨fun _ _ => [], fun _ => none⟩ := (Prod.mk.inj hclear).2.symm
  subst hs0
  have hfacts := runWorkers_vectors_first sched
    ((trainBatches records lsh.config.BatchSize.toNat).map (workerOps lsh.hasher))
    (⟨fun _ _ => [], fun _ => none⟩ : MemState F)
    (by intro p h id hid; cases hid)
    (by
      intro w hw
      obtain ⟨batch, _, hw⟩ := List.mem_map.mp hw
      subst hw
      exact vecFirst_workerOps lsh.hasher batch _)
  rw [← hs1] at hfacts
  have hsome := hfacts perm hash id hid
  obtain ⟨vec, hvec⟩ := Option.isSome_iff_exists.mp hsome
  refine ⟨vec, ?_⟩
  show (match s1.vectors id with
    | some vec => Except.ok vec
    | none => Except.error GoError.notFound) = _
  rw [hvec]

/-- C6 at the store retrained from `demoState`: the id `e` of bucket `(0, 0)`
has its vector. -/
theorem Train_bucket_ids_have_vectors_witness :
    ∃ vec, memStore.GetVector "e" retrainedState = .ok vec :=
  Train_bucket_ids_have_vectors demoIndex rfl [1, 0, 1] twoRecords demoState retrainedState
    (by decide) rfl 0 0 "e" (by decide)

end TrainVectors

/-! ## Search: what the loops do not miss -/

section SearchComplete

variable {σ F : Type} [LE F] [∀ a b : F, Decidable (a ≤ b)]

/-- The inner loop asks `GetVector` only for ids its iterator yields. -/
theorem scanBucket_calls_subset (lsh : LSHIndex σ F) (s : σ) (query : List F)
    (id : String) :
    ∀ (iter cs : List String) (cl : List (Record F)),
      StoreCall.getVector id ∈ (scanBucket lsh s query iter cs cl).1 → id ∈ iter := by
  intro iter
  induction iter with
  | nil =>
    intro cs cl h
    by_cases hcap : lsh.config.MaxNN ≤ (cl.length : Int)
    · simp [scanBucket_cap lsh s query [] cs cl hcap] at h
    · simp [scanBucket_nil lsh s query cs cl hcap] at h
  | cons id0 rest ih =>
    intro cs cl h
    by_cases hcap : lsh.config.MaxNN ≤ (cl.length : Int)
    · simp [scanBucket_cap lsh s query _ cs cl hcap] at h
    by_cases hseen : id0 ∈ cs
    · rw [scanBucket_seen lsh s query id0 rest cs cl hcap hseen] at h
      simp only [List.mem_cons, reduceCtorEq, false_or] at h
      exact List.mem_cons_of_mem _ (ih cs cl h)
    rcases hvec : lsh.index.GetVector id0 s with err | vec
    · rw [scanBucket_fail lsh s query id0 rest cs cl err hcap hseen hvec] at h
      simp only [List.mem_cons, reduceCtorEq, StoreCall.getVector.injEq, false_or,
        List.mem_nil_iff, or_false] at h
      rw [h]
      exact List.mem_cons_self _ _
    · by_cases hd : lsh.distanceMetric.GetDist vec query ≤ lsh.config.DistanceThrsh
      · rw [scanBucket_near lsh s query id0 rest cs cl vec hcap hseen hvec hd] at h
        simp only [List.mem_cons, reduceCtorEq, StoreCall.getVector.injEq, false_or] at h
        rcases h with h | h
        · rw [h]
          exact List.mem_cons_self _ _
        · exact List.mem_cons_of_mem _ (ih _ _ h)
      · rw [scanBucket_far lsh s query id0 rest cs cl vec hcap hseen hvec hd] at h
        simp only [List.mem_cons, reduceCtorEq, StoreCall.getVector.injEq, false_or] at h
        rcases h with h | h
        · rw [h]
          exact List.mem_cons_self _ _
        · exact List.mem_cons_of_mem _ (ih _ _ h)

/-- The outer loop asks `GetVector` only for ids that an iterator of one of the
probed buckets yields. -/
theorem probe_calls_subset (lsh : LSHIndex σ F) (s : σ) (query : List F)
    (id : String) :
    ∀ (hashes : List (Int × Nat)) (cs : List String) (cl : List (Record F)),
      StoreCall.getVector id ∈ (probe lsh s query hashes cs cl).1 →
      ∃ ph ∈ hashes, ∃ iter, lsh.index.GetHashIterator ph.1 ph.2 s = .ok iter ∧
        id ∈ iter := by
  intro hashes
  induction hashes with
  | nil =>
    intro cs cl h
    simp [probe] at h
  | cons ph rest ih =>
    intro cs cl h
    obtain ⟨perm, hash⟩ := ph
    by_cases hcap : lsh.config.MaxNN ≤ (cl.length : Int)
    · simp [probe_cap lsh s query _ cs cl hcap] at h
    rcases hiter : lsh.index.GetHashIterator perm hash s with err | iter
    · rw [probe_miss lsh s query perm hash rest cs cl err hcap hiter] at h
      simp only [List.mem_cons, reduceCtorEq, false_or] at h
      obtain ⟨ph, hph, it, hit, hid⟩ := ih cs cl h
      exact ⟨ph, List.mem_cons_of_mem _ hph, it, hit, hid⟩
    · have hsub := scanBucket_calls_subset lsh s query id iter cs cl
      rcases hsc : scanBucket lsh s query iter cs cl with ⟨calls, err | ⟨cs1, cl1⟩⟩
      · rw [probe_fail lsh s query perm hash rest cs cl iter calls err hcap hiter hsc] at h
        rw [hsc] at hsub
        simp only [List.mem_cons, reduceCtorEq, false_or] at h
        exact ⟨(perm, hash), List.mem_cons_self _ _, iter, hiter, hsub h⟩
      · rw [probe_next lsh s query perm hash rest cs cl iter calls cs1 cl1 hcap hiter hsc] at h
        rw [hsc] at hsub
        simp only [List.mem_cons, reduceCtorEq, false_or, List.mem_append] at h
        rcases h with h | h
        · exact ⟨(perm, hash), List.mem_cons_self _ _, iter, hiter, hsub h⟩
        · obtain ⟨ph, hph, it, hit, hid⟩ := ih cs1 cl1 h
          exact ⟨ph, List.mem_cons_of_mem _ hph, it, hit, hid⟩

/-- The inner loop only appends, keeps `closestSet` within the ids of
`closest`, and when it ends below the cap every id its iterator yielded whose
vector is within the threshold is in the result. -/
theorem scanBucket_complete (lsh : LSHIndex σ F) (s : σ) (query : List F) :
    ∀ (iter cs : List String) (cl : List (Record F)) (cs1 : List String)
      (cl1 : List (Record F)),
      (∀ id ∈ cs, id ∈ cl.map Record.ID) →
      (scanBucket lsh s query iter cs cl).2 = .ok (cs1, cl1) →
      cl <+: cl1 ∧ (∀ id ∈ cs1, id ∈ cl1.map Record.ID) ∧
        (¬ lsh.config.MaxNN ≤ (cl1.length : Int) → ∀ id ∈ iter, ∀ vec,
          lsh.index.GetVector id s = .ok vec →
          lsh.distanceMetric.GetDist vec query ≤ lsh.config.DistanceThrsh →
          id ∈ cl1.map Record.ID) := by
  intro iter
  induction iter with
  | nil =>
    intro cs cl cs1 cl1 hcs h
    have hout : cs1 = cs ∧ cl1 = cl := by
      by_cases hcap : lsh.config.MaxNN ≤ (cl.length : Int)
      · rw [scanBucket_cap lsh s query [] cs cl hcap] at h
        simpa [eq_comm] using h
      · rw [scanBucket_nil lsh s query cs cl hcap] at h
        simpa [eq_comm] using h
    obtain ⟨h1, h2⟩ := hout
    subst h1 h2
    exact ⟨List.prefix_refl _, hcs, fun _ id hid => absurd hid (List.not_mem_nil id)⟩
  | cons id0 rest ih =>
    intro cs cl cs1 cl1 hcs h
    by_cases hcap : lsh.config.MaxNN ≤ (cl.length : Int)
    · rw [scanBucket_cap lsh s query _ cs cl hcap] at h
      have hout : cs1 = cs ∧ cl1 = cl := by simpa [eq_comm] using h
      obtain ⟨h1, h2⟩ := hout
      subst h1 h2
      exact ⟨List.prefix_refl _, hcs, fun hn => absurd hcap hn⟩
    by_cases hseen : id0 ∈ cs
    · rw [scanBucket_seen lsh s query id0 rest cs cl hcap hseen] at h
      obtain ⟨hpre, hcs1, hall⟩ := ih cs cl cs1 cl1 hcs h
      refine ⟨hpre, hcs1, ?_⟩
      intro hn id hid vec hv hd
      rcases List.mem_cons.mp hid with hid | hid
      · rw [hid]
        exact (hpre.map Record.ID).subset (hcs id0 hseen)
      · exact hall hn id hid vec hv hd
    rcases hvec : lsh.index.GetVector id0 s with err | vec0
    · rw [scanBucket_fail lsh s query id0 rest cs cl err hcap hseen hvec] at h
      cases h
    · by_cases hd0 : lsh.distanceMetric.GetDist vec0 query ≤ lsh.config.DistanceThrsh
      · rw [scanBucket_near lsh s query id0 rest cs cl vec0 hcap hseen hvec hd0] at h
        obtain ⟨hpre, hcs1, hall⟩ := ih (id0 :: cs) (cl ++ [⟨id0, vec0⟩]) cs1 cl1
          (by
            intro id hid
            rw [List.map_append, List.mem_append]
            rcases List.mem_cons.mp hid with hid | hid
            · exact Or.inr (by simp [hid])
            · exact Or.inl (hcs id hid)) h
        refine ⟨(List.prefix_append _ _).trans hpre, hcs1, ?_⟩
        intro hn id hid vec hv hd
        rcases List.mem_cons.mp hid with hid | hid
        · rw [hid]
          exact (hpre.map Record.ID).subset (by simp)
        · exact hall hn id hid vec hv hd
      · rw [scanBucket_far lsh s query id0 rest cs cl vec0 hcap hseen hvec hd0] at h
        obtain ⟨hpre, hcs1, hall⟩ := ih cs cl cs1 cl1 hcs h
        refine ⟨hpre, hcs1, ?_⟩
        intro hn id hid vec hv hd
        rcases List.mem_cons.mp hid with hid | hid
        · subst hid
          rw [hvec] at hv
          simp only [Except.ok.injEq] at hv
          subst hv
          exact absurd hd hd0
        · exact hall hn id hid vec hv hd

/-- The outer loop only appends, and when it ends below the cap every id
yielded by the iterator of one of the probed buckets whose vector is within the
threshold is in the result. -/
theorem probe_complete (lsh : LSHIndex σ F) (s : σ) (query : List F) :
    ∀ (hashes : List (Int × Nat)) (cs : List String) (cl res : List (Record F)),
      (∀ id ∈ cs, id ∈ cl.map Record.ID) →
      (probe lsh s query hashes cs cl).2 = .ok res →
      cl <+: res ∧
        (¬ lsh.config.MaxNN ≤ (res.length : Int) → ∀ ph ∈ hashes, ∀ iter,
          lsh.index.GetHashIterator ph.1 ph.2 s = .ok iter → ∀ id ∈ iter, ∀ vec,
          lsh.index.GetVector id s = .ok vec →
          lsh.distanceMetric.GetDist vec query ≤ lsh.config.DistanceThrsh →
          id ∈ res.map Record.ID) := by
  intro hashes
  induction hashes with
  | nil =>
    intro cs cl res hcs h
    simp only [probe, Except.ok.injEq] at h
    subst h
    exact ⟨List.prefix_refl _, fun _ ph hph => absurd hph (List.not_mem_nil ph)⟩
  | cons ph0 rest ih =>
    intro cs cl res hcs h
    obtain ⟨perm, hash⟩ := ph0
    by_cases hcap : lsh.config.MaxNN ≤ (cl.length : Int)
    · rw [probe_cap lsh s query _ cs cl hcap] at h
      simp only [Except.ok.injEq] at h
      subst h
      exact ⟨List.prefix_refl _, fun hn => absurd hcap hn⟩
    rcases hiter : lsh.index.GetHashIterator perm hash s with err | iter0
    · rw [probe_miss lsh s query perm hash rest cs cl err hcap hiter] at h
      obtain ⟨hpre, hall⟩ := ih cs cl res hcs h
      refine ⟨hpre, ?_⟩
      intro hn ph hph iter hit id hid vec hv hd
      rcases List.mem_cons.mp hph with hph | hph
      · subst hph
        rw [hiter] at hit
        cases hit
      · exact hall hn ph hph iter hit id hid vec hv hd
    · rcases hsc : scanBucket lsh s query iter0 cs cl with ⟨calls, err | ⟨cs1, cl1⟩⟩
      · rw [probe_fail lsh s query perm hash rest cs cl iter0 calls err hcap hiter hsc] at h
        cases h
      · rw [probe_next lsh s query perm hash rest cs cl iter0 calls cs1 cl1 hcap hiter hsc] at h
        obtain ⟨hpre1, hcs1, hall1⟩ := scanBucket_complete lsh s query iter0 cs cl cs1 cl1 hcs
          (by rw [hsc])
        obtain ⟨hpre, hall⟩ := ih cs1 cl1 res hcs1 h
        refine ⟨hpre1.trans hpre, ?_⟩
        intro hn ph hph iter hit id hid vec hv hd
        rcases List.mem_cons.mp hph with hph | hph
        · subst hph
          rw [hiter] at hit
          simp only [Except.ok.injEq] at hit
          subst hit
          have hlen := hpre.length_le
          exact (hpre.map Record.ID).subset
            (hall1 (by omega) id hid vec hv hd)
        · exact hall hn ph hph iter hit id hid vec hv hd

end SearchComplete

/-! ## A trained record is found by its own vector -/

section TrainThenSearch

variable {F : Type}

theorem memStore_GetVector_ok (s : MemState F) (id : String) (vec : List F) :
    memStore.GetVector id s = .ok vec ↔ s.vectors id = some vec := by
  show (match s.vectors id with
    | some vec => Except.ok vec
    | none => Except.error GoError.notFound) = _ ↔ _
  rcases s.vectors id with _ | v <;> simp

theorem memStore_GetHashIterator_ok (s : MemState F) (perm : Int) (hash : Nat)
    (iter : List String) (h : memStore.GetHashIterator perm hash s = .ok iter) :
    iter = s.buckets perm hash := by
  change (match s.buckets perm hash with
    | [] => Except.error GoError.notFound
    | id :: ids => Except.ok (id :: ids)) = _ at h
  rcases hb : s.buckets perm hash with _ | ⟨id, ids⟩
  · rw [hb] at h
    cases h
  · rw [hb] at h
    simp only [Except.ok.injEq] at h
    exact h.symm

theorem memStore_GetHashIterator_of_mem (s : MemState F) (perm : Int) (hash : Nat)
    (id : String) (h : id ∈ s.buckets perm hash) :
    memStore.GetHashIterator perm hash s = .ok (s.buckets perm hash) := by
  show (match s.buckets perm hash with
    | [] => Except.error GoError.notFound
    | id :: ids => Except.ok (id :: ids)) = _
  rcases hb : s.buckets perm hash with _ | ⟨id0, ids⟩
  · rw [hb] at h
    cases h
  · rfl

/-- On the contract store, when the records have distinct ids and every record
has its writes stored or pending, the store the workers leave holds the vector
of every record and the id of every record in each bucket of its hashes. -/
theorem runWorkers_progress (hasher : Hasher F) (records : List (Record F))
    (hids : (records.map Record.ID).Nodup)
    (sched : List Nat) (ws : List (List (StoreOp F))) (s : MemState F)
    (hws : ∀ w ∈ ws, ∀ op ∈ w, OpFrom hasher records op)
    (hvec : ∀ r ∈ records, s.vectors r.ID = some r.Vec ∨
      ∃ w ∈ ws, StoreOp.setVector r.ID r.Vec ∈ w)
    (hbk : ∀ r ∈ records, ∀ ph ∈ hasher.getHashes r.Vec,
      r.ID ∈ s.buckets ph.1 ph.2 ∨ ∃ w ∈ ws, StoreOp.setHash ph.1 ph.2 r.ID ∈ w) :
    (∀ r ∈ records, (runWorkers memStore sched ws s).vectors r.ID = some r.Vec) ∧
      (∀ r ∈ records, ∀ ph ∈ hasher.getHashes r.Vec,
        r.ID ∈ (runWorkers memStore sched ws s).buckets ph.1 ph.2) := by
  obtain ⟨done, hdone, _, h2, h3⟩ := runWorkers_invariant memStore
    (fun ws s =>
      (∀ w ∈ ws, ∀ op ∈ w, OpFrom hasher records op) ∧
      (∀ r ∈ records, s.vectors r.ID = some r.Vec ∨
        ∃ w ∈ ws, StoreOp.setVector r.ID r.Vec ∈ w) ∧
      (∀ r ∈ records, ∀ ph ∈ hasher.getHashes r.Vec,
        r.ID ∈ s.buckets ph.1 ph.2 ∨ ∃ w ∈ ws, StoreOp.setHash ph.1 ph.2 r.ID ∈ w))
    (by
      rintro pre op rest post s ⟨hw, hv, hb⟩
      have hop : OpFrom hasher records op :=
        hw _ (List.mem_append_right _ (List.mem_cons_self _ _)) op (List.mem_cons_self _ _)
      refine ⟨?_, ?_, ?_⟩
      · intro w hw1 o ho
        obtain ⟨w0, hw0, hsub⟩ := mem_workers_of_step pre post op rest w hw1
        exact hw w0 hw0 o (hsub o ho)
      · intro r hr
        rcases hv r hr with hst | hpend
        · left
          cases op with
          | setVector id0 vec0 =>
            rw [memStore_setVector_vectors]
            split_ifs with hk
            · have heq : r = ⟨id0, vec0⟩ := List.inj_on_of_nodup_map hids hr hop hk
              rw [heq]
            · exact hst
          | setHash perm hash id0 => exact hst
        · rcases pending_after_step pre post op _ rest hpend with ho | hpend
          · left
            rw [← ho, memStore_setVector_vectors, if_pos rfl]
          · exact Or.inr hpend
      · intro r hr ph hph
        rcases hb r hr ph hph with hst | hpend
        · left
          cases op with
          | setVector id0 vec0 => exact hst
          | setHash perm hash id0 =>
            exact (memStore_setHash_mem perm hash id0 s ph.1 ph.2 r.ID).mpr (Or.inl hst)
        · rcases pending_after_step pre post op _ rest hpend with ho | hpend
          · left
            rw [← ho]
            exact (memStore_setHash_mem ph.1 ph.2 r.ID s ph.1 ph.2 r.ID).mpr
              (Or.inr ⟨rfl, rfl, rfl⟩)
          · exact Or.inr hpend)
    sched ws s ⟨hws, hvec, hbk⟩
  have hnone : ∀ o : StoreOp F, ¬ ∃ w ∈ done, o ∈ w := by
    rintro o ⟨w, hw, ho⟩
    rw [hdone w hw] at ho
    cases ho
  exact ⟨fun r hr => (h2 r hr).resolve_right (hnone _),
    fun r hr ph hph => (h3 r hr ph hph).resolve_right (hnone _)⟩

end TrainThenSearch

section TrainedRecordFound

variable {F : Type} [LE F] [∀ a b : F, Decidable (a ≤ b)] [Zero F]

/-- The squared Euclidean distance of a vector to itself is 0. -/
theorem sqDist_self (v : List Int) : sqDist.GetDist v v = 0 := by
  show (List.zipWith _ v v).sum = 0
  induction v with
  | nil => rfl
  | cons a v ih => simp only [List.zipWith_cons_cons, List.sum_cons, ih]; ring

/-- C4: a trained record is found by its own vector.  For records with
pairwise distinct ids, a hasher with at least one permutation, a metric with
`distance(v, v) = 0`, `BatchSize > 0`, `DistanceThrsh ≥ 0` and
`MaxNN ≥ len(records)`, after a successful Train on a store that keeps the
contract, `Search(r.Vec)` succeeds for every input record `r` and its result
contains `r`. -/
theorem Search_finds_trained_record (lsh : LSHIndex (MemState F) F)
    (hstore : lsh.index = memStore) (sched : List Nat) (records : List (Record F))
    (s s1 : MemState F)
    (hids : (records.map Record.ID).Nodup)
    (hperm : ∀ v, lsh.hasher.getHashes v ≠ [])
    (hzero : ∀ v, lsh.distanceMetric.GetDist v v = 0)
    (hb : 0 < lsh.config.BatchSize)
    (hthr : (0 : F) ≤ lsh.config.DistanceThrsh)
    (hmax : (records.length : Int) ≤ lsh.config.MaxNN)
    (htrain : Train lsh sched records s = .returned none s1)
    (r : Record F) (hr : r ∈ records) :
    ∃ res, Search lsh s1 r.Vec = .ok res ∧ r ∈ res := by
  obtain ⟨s0, hclear, _, hs1⟩ := Train_returned_nil lsh sched records s s1 hb htrain
  rw [hstore] at hclear hs1
  have hs0 : s0 = ⟨fun _ _ => [], fun _ => none⟩ := (Prod.mk.inj hclear).2.symm
  subst hs0
  have hbpos : 0 < lsh.config.BatchSize.toNat := by omega
  -- what the trained store holds
  have horigin := runWorkers_origin lsh.hasher records sched
    ((trainBatches records lsh.config.BatchSize.toNat).map (workerOps lsh.hasher))
    ⟨fun _ _ => [], fun _ => none⟩
    (by intro p h id hid; cases hid)
    (by intro id vec hid; cases hid)
    (trainWorkers_from lsh.hasher records _ hbpos)
  have hfirst := runWorkers_vectors_first sched
    ((trainBatches records lsh.config.BatchSize.toNat).map (workerOps lsh.hasher))
    (⟨fun _ _ => [], fun _ => none⟩ : MemState F)
    (by intro p h id hid; cases hid)
    (by
      intro w hw
      obtain ⟨batch, _, hw⟩ := List.mem_map.mp hw
      subst hw
      exact vecFirst_workerOps lsh.hasher batch _)
  have hprog := runWorkers_progress lsh.hasher records hids sched
    ((trainBatches records lsh.config.BatchSize.toNat).map (workerOps lsh.hasher))
    ⟨fun _ _ => [], fun _ => none⟩
    (trainWorkers_from lsh.hasher records _ hbpos)
    (by
      intro r0 hr0
      obtain ⟨w, hw, hv, _⟩ := trainWorkers_cover lsh.hasher records _ hbpos r0 hr0
      exact Or.inr ⟨w, hw, hv⟩)
    (by
      intro r0 hr0 ph hph
      obtain ⟨w, hw, _, hh⟩ := trainWorkers_cover lsh.hasher records _ hbpos r0 hr0
      exact Or.inr ⟨w, hw, hh ph hph⟩)
  rw [← hs1] at horigin hfirst hprog
  obtain ⟨_, hstored⟩ := horigin
  obtain ⟨hvecs, hbuckets⟩ := hprog
  -- Search does not fail: every id it asks for comes from a bucket
  rcases hS : Search lsh s1 r.Vec with e | res
  · exfalso
    obtain ⟨id, hcall, hfail⟩ :=
      (probe_error_iff lsh s1 r.Vec e (lsh.hasher.getHashes r.Vec) [] []).mp hS
    obtain ⟨ph, _, iter, hiter, hid⟩ :=
      probe_calls_subset lsh s1 r.Vec id (lsh.hasher.getHashes r.Vec) [] [] hcall
    rw [hstore] at hiter hfail
    rw [memStore_GetHashIterator_ok s1 ph.1 ph.2 iter hiter] at hid
    obtain ⟨vec, hvec⟩ := Option.isSome_iff_exists.mp (hfirst ph.1 ph.2 id hid)
    rw [(memStore_GetVector_ok s1 id vec).mpr hvec] at hfail
    cases hfail
  · refine ⟨res, rfl, ?_⟩
    have hres_rec : ∀ r1 ∈ res, r1 ∈ records := by
      intro r1 hr1
      have h1 := (SearchOn_records_stored lsh s1 r.Vec _ res hS r1 hr1).1
      rw [hstore] at h1
      exact hstored r1.ID r1.Vec ((memStore_GetVector_ok s1 r1.ID r1.Vec).mp h1)
    by_cases hcap : lsh.config.MaxNN ≤ (res.length : Int)
    · -- the cap is reached only when all records are in the result
      have hnd : res.Nodup := List.Nodup.of_map _ (SearchOn_ids_nodup lsh s1 r.Vec _ res hS)
      have hsub : res.Subperm records := List.subperm_of_subset hnd hres_rec
      have hperm1 : res.Perm records := hsub.perm_of_length_le (by omega)
      exact hperm1.mem_iff.mpr hr
    · -- below the cap nothing within the threshold is missed
      obtain ⟨ph, hph⟩ := List.exists_mem_of_ne_nil _ (hperm r.Vec)
      have hin := hbuckets r hr ph hph
      have hcomplete := (probe_complete lsh s1 r.Vec (lsh.hasher.getHashes r.Vec) [] [] res
        (by intro id hid; cases hid) hS).2 hcap ph hph (s1.buckets ph.1 ph.2)
        (by rw [hstore]; exact memStore_GetHashIterator_of_mem s1 ph.1 ph.2 r.ID hin)
        r.ID hin r.Vec
        (by rw [hstore]; exact (memStore_GetVector_ok s1 r.ID r.Vec).mpr (hvecs r hr))
        (by rw [hzero]; exact hthr)
      obtain ⟨r1, hr1, hid1⟩ := List.mem_map.mp hcomplete
      have heq : r1 = r := List.inj_on_of_nodup_map hids (hres_rec r1 hr1) hr hid1
      rw [← heq]
      exact hr1

/-- C4 at the index retrained with `d` and `e`: searching the vector of `d`
returns `d`. -/
theorem Search_finds_trained_record_witness :
    ∃ res, Search demoIndex retrainedState [0, 3] = .ok res ∧
      (⟨"d", [0, 3]⟩ : Record Int) ∈ res :=
  Search_finds_trained_record demoIndex rfl [1, 0, 1] twoRecords demoState retrainedState
    (by decide) (by intro v; simp [demoIndex, signHasher]) sqDist_self (by decide)
    (by decide) (by decide) rfl ⟨"d", [0, 3]⟩ (by decide)

end TrainedRecordFound

/-! ## Train: the batches are a partition into slices of `batchSize` -/

section TrainPartition

variable {F : Type}

/-- With enough iterations allowed, every batch the loop makes from index `i`
on is non-empty and has at most `b` records, and every batch but the last has
exactly `b`. -/
theorem batchLoop_sizes (records : List (Record F)) (b : Nat) (hb : 0 < b) :
    ∀ (fuel i : Nat), records.length - i ≤ fuel →
      (∀ batch ∈ batchLoop records b fuel i, batch ≠ [] ∧ batch.length ≤ b) ∧
        (∀ batch ∈ (batchLoop records b fuel i).dropLast, batch.length = b) := by
  intro fuel
  induction fuel with
  | zero =>
    intro i hfuel
    rw [batchLoop_done records b 0 i (by omega)]
    exact ⟨fun _ h => absurd h (List.not_mem_nil _), fun _ h => absurd h (List.not_mem_nil _)⟩
  | succ fuel ih =>
    intro i hfuel
    by_cases hi : i < records.length
    · by_cases hlast : records.length < i + b
      · rw [batchLoop_last records b fuel i hi hlast,
          batchLoop_done records b fuel (i + b) (by omega)]
        have hlen : ((records.drop i).take (records.length - i)).length =
            records.length - i := by
          rw [List.length_take, List.length_drop]
          omega
        refine ⟨?_, fun _ h => absurd h (by simp)⟩
        intro batch hbatch
        rw [List.mem_singleton] at hbatch
        subst hbatch
        refine ⟨?_, by omega⟩
        intro hnil
        rw [hnil] at hlen
        simp only [List.length_nil] at hlen
        omega
      · rw [batchLoop_full records b fuel i hi hlast]
        obtain ⟨ih1, ih2⟩ := ih (i + b) (by omega)
        have hlen : ((records.drop i).take b).length = b := by
          rw [List.length_take, List.length_drop]
          omega
        refine ⟨?_, ?_⟩
        · intro batch hbatch
          rcases List.mem_cons.mp hbatch with hbatch | hbatch
          · subst hbatch
            refine ⟨?_, by omega⟩
            intro hnil
            rw [hnil] at hlen
            simp only [List.length_nil] at hlen
            omega
          · exact ih1 batch hbatch
        · intro batch hbatch
          rcases hrest : batchLoop records b fuel (i + b) with _ | ⟨x, rest⟩
          · rw [hrest] at hbatch
            simp at hbatch
          · rw [hrest, List.dropLast_cons₂] at hbatch
            rcases List.mem_cons.mp hbatch with hbatch | hbatch
            · rw [hbatch]
              exact hlen
            · rw [hrest] at ih2
              exact ih2 batch hbatch
    · rw [batchLoop_done records b _ i hi]
      exact ⟨fun _ h => absurd h (List.not_mem_nil _),
        fun _ h => absurd h (List.not_mem_nil _)⟩

/-- With enough iterations allowed, the `k`-th batch the loop makes from index
`i` on is the slice `records[i + k*b : i + k*b + b]`, cut at the end of the
input. -/
theorem batchLoop_getElem (records : List (Record F)) (b : Nat) (hb : 0 < b) :
    ∀ (fuel i k : Nat), records.length - i ≤ fuel →
      k < (batchLoop records b fuel i).length →
      (batchLoop records b fuel i).get? k = some ((records.drop (i + k * b)).take b) := by
  intro fuel
  induction fuel with
  | zero =>
    intro i k hfuel hk
    rw [batchLoop_done records b 0 i (by omega)] at hk
    simp at hk
  | succ fuel ih =>
    intro i k hfuel hk
    by_cases hi : i < records.length
    · have hhead : batchLoop records b (fuel + 1) i =
          (records.drop i).take b :: batchLoop records b fuel (i + b) := by
        by_cases hlast : records.length < i + b
        · rw [batchLoop_last records b fuel i hi hlast]
          congr 1
          rw [List.take_of_length_le (by simp), List.take_of_length_le]
          rw [List.length_drop]
          omega
        · exact batchLoop_full records b fuel i hi hlast
      rw [hhead] at hk ⊢
      cases k with
      | zero => simp
      | succ k =>
        simp only [List.length_cons, Nat.add_lt_add_iff_right] at hk
        rw [List.get?_cons_succ, ih (i + b) k (by omega) hk]
        congr 3
        rw [Nat.add_mul, Nat.one_mul]
        omega
    · rw [batchLoop_done records b _ i hi] at hk
      simp at hk

/-- C11: for every record list and every `BatchSize b > 0`, the batches Train
hands to its workers are contiguous slices of the input (the `k`-th is
`records[k*b : k*b + b]`, cut at the end) that, put end to end in dispatch
order, are the input; every batch is non-empty, every batch but the last has
exactly `b` records and the last has at most `b`. -/
theorem Train_batches_partition (records : List (Record F)) (b : Nat) (hb : 0 < b) :
    (trainBatches records b).flatten = records ∧
      (∀ k, k < (trainBatches records b).length →
        (trainBatches records b).get? k = some ((records.drop (k * b)).take b)) ∧
      (∀ batch ∈ trainBatches records b, batch ≠ [] ∧ batch.length ≤ b) ∧
      (∀ batch ∈ (trainBatches records b).dropLast, batch.length = b) := by
  obtain ⟨h1, h2⟩ := batchLoop_sizes records b hb records.length 0 (by omega)
  refine ⟨trainBatches_flatten records b hb, ?_, h1, h2⟩
  intro k hk
  have h := batchLoop_getElem records b hb records.length 0 k (by omega) hk
  simpa [trainBatches] using h

/-- C11 for five records in batches of 3: a batch of 3 and a batch of 2. -/
theorem Train_batches_partition_witness :
    (trainBatches fiveRecords 3).flatten = fiveRecords ∧
      (∀ k, k < (trainBatches fiveRecords 3).length →
        (trainBatches fiveRecords 3).get? k = some ((fiveRecords.drop (k * 3)).take 3)) ∧
      (∀ batch ∈ trainBatches fiveRecords 3, batch ≠ [] ∧ batch.length ≤ 3) ∧
      (∀ batch ∈ (trainBatches fiveRecords 3).dropLast, batch.length = 3) :=
  Train_batches_partition fiveRecords 3 (by decide)

end TrainPartition

/-! ## Search: no neighbours wanted, no bucket found -/

section SearchEmpty

variable {σ F : Type} [LE F] [∀ a b : F, Decidable (a ≤ b)]

/-- C12: for every store state, hasher and query, with `MaxNN = 0` Search
returns the empty list and no error, and makes no store call: no
`GetHashIterator`, no `Next`, no `GetVector`. -/
theorem Search_MaxNN_zero (lsh : LSHIndex σ F) (s : σ) (query : List F)
    (hzero : lsh.config.MaxNN = 0) :
    Search lsh s query = .ok [] ∧ SearchCalls lsh s query = [] := by
  have h := probe_cap lsh s query (lsh.hasher.getHashes query) [] []
    (by rw [hzero]; exact le_refl _)
  constructor
  · show (probe lsh s query (lsh.hasher.getHashes query) [] []).2 = _
    rw [h]
  · show (probe lsh s query (lsh.hasher.getHashes query) [] []).1 = _
    rw [h]

/-- C12 at an index over the store that is down, with `MaxNN = 0`: the store
is not asked. -/
theorem Search_MaxNN_zero_witness :
    Search (⟨⟨1, 0, 1⟩, downStore, signHasher, sqDist⟩ : LSHIndex Unit Int) () [1, 0]
        = .ok [] ∧
      SearchCalls (⟨⟨1, 0, 1⟩, downStore, signHasher, sqDist⟩ : LSHIndex Unit Int) () [1, 0]
        = [] :=
  Search_MaxNN_zero ⟨⟨1, 0, 1⟩, downStore, signHasher, sqDist⟩ () [1, 0] rfl

/-- When `GetHashIterator` fails for every probed pair the outer loop leaves
the result as it was. -/
theorem probe_all_miss (lsh : LSHIndex σ F) (s : σ) (query : List F) :
    ∀ (hashes : List (Int × Nat)) (cs : List String) (cl : List (Record F)),
      (∀ ph ∈ hashes, ∃ e, lsh.index.GetHashIterator ph.1 ph.2 s = .error e) →
      (probe lsh s query hashes cs cl).2 = .ok cl := by
  intro hashes
  induction hashes with
  | nil => intro cs cl _; rfl
  | cons ph rest ih =>
    intro cs cl hmiss
    obtain ⟨perm, hash⟩ := ph
    by_cases hcap : lsh.config.MaxNN ≤ (cl.length : Int)
    · rw [probe_cap lsh s query _ cs cl hcap]
    · obtain ⟨e, he⟩ := hmiss (perm, hash) (List.mem_cons_self _ _)
      rw [probe_miss lsh s query perm hash rest cs cl e hcap he]
      exact ih cs cl (fun ph hph => hmiss ph (List.mem_cons_of_mem _ hph))

/-- C13: when `GetHashIterator` reports not-found for every
`(permutation, signature)` pair of the query, Search returns the empty list and
a nil error; in particular so does every Search after a successful Train of the
empty record list on a store that keeps the contract (after `Clear` every
bucket is reported not-found). -/
theorem Search_empty_without_buckets (lsh : LSHIndex σ F) (query : List F) :
    (∀ s, (∀ ph ∈ lsh.hasher.getHashes query,
        lsh.index.GetHashIterator ph.1 ph.2 s = .error GoError.notFound) →
      Search lsh s query = .ok []) ∧
    ((∀ s s0, lsh.index.Clear s = (none, s0) →
        ∀ p h, lsh.index.GetHashIterator p h s0 = .error GoError.notFound) →
      0 < lsh.config.BatchSize →
      ∀ sched s s1, Train lsh sched [] s = .returned none s1 →
        Search lsh s1 query = .ok []) := by
  have hA : ∀ s, (∀ ph ∈ lsh.hasher.getHashes query,
      lsh.index.GetHashIterator ph.1 ph.2 s = .error GoError.notFound) →
      Search lsh s query = .ok [] := fun s hmiss =>
    probe_all_miss lsh s query (lsh.hasher.getHashes query) [] []
      (fun ph hph => ⟨_, hmiss ph hph⟩)
  refine ⟨hA, ?_⟩
  intro hcontract hb sched s s1 htrain
  obtain ⟨s0, hclear, _, hs1⟩ := Train_returned_nil lsh sched [] s s1 hb htrain
  have hs : s1 = s0 := by
    rw [hs1]
    have hnil : trainBatches ([] : List (Record F)) lsh.config.BatchSize.toNat = [] := rfl
    rw [hnil]
    exact runWorkers_nil lsh.index sched s0
  rw [hs]
  exact hA s0 (fun ph _ => hcontract s s0 hclear ph.1 ph.2)

/-- C13 on the contract store: Train of no records from a store that held
`a`, `b`, `c`, then Search. -/
theorem Search_empty_without_buckets_witness :
    Search demoIndex emptyState [1, 0] = .ok [] :=
  (Search_empty_without_buckets demoIndex [1, 0]).2
    (by
      intro s s0 hclear p h
      have hs0 : s0 = ⟨fun _ _ => [], fun _ => none⟩ := (Prod.mk.inj hclear).2.symm
      subst hs0
      rfl)
    (by decide) [] demoState emptyState rfl

end SearchEmpty

/-! ## Search: completeness below the cap and the range order -/

section SearchOrder

variable {σ F : Type} [LE F] [∀ a b : F, Decidable (a ≤ b)]

/-- C17: when the cap is not reached Search misses nothing in the probed
buckets.  If Search succeeds with fewer than `MaxNN` records, its result holds
every id that the iterator of a `(permutation, signature)` pair of
`getHashes(query)` yields and whose stored vector is at a distance
`≤ DistanceThrsh` (equality included) from the query. -/
theorem Search_complete_below_cap (lsh : LSHIndex σ F) (s : σ) (query : List F)
    (res : List (Record F)) (h : Search lsh s query = .ok res)
    (hlt : (res.length : Int) < lsh.config.MaxNN)
    (ph : Int × Nat) (hph : ph ∈ lsh.hasher.getHashes query) (iter : List String)
    (hiter : lsh.index.GetHashIterator ph.1 ph.2 s = .ok iter)
    (id : String) (hid : id ∈ iter) (vec : List F)
    (hvec : lsh.index.GetVector id s = .ok vec)
    (hd : lsh.distanceMetric.GetDist vec query ≤ lsh.config.DistanceThrsh) :
    id ∈ res.map Record.ID :=
  (probe_complete lsh s query (lsh.hasher.getHashes query) [] [] res
    (by intro id hid; cases hid) h).2 (by omega) ph hph iter hiter id hid vec hvec hd

/-- C17 at an index with room for 5 neighbours: `b` lies at squared distance 1,
exactly the threshold, and is in the result. -/
theorem Search_complete_below_cap_witness :
    "b" ∈ ([⟨"a", [1, 0]⟩, ⟨"b", [2, 0]⟩, ⟨"c", [1, 1]⟩] : List (Record Int)).map Record.ID :=
  Search_complete_below_cap wideIndex demoState [1, 0] _ (by rfl) (by decide)
    (0, 1) (by decide) ["a", "b", "b", "c"] (by rfl) "b" (by decide) [2, 0] (by rfl)
    (by decide)

/-- A record the inner loop returns was there before or has an id the iterator
yielded. -/
theorem scanBucket_sound (lsh : LSHIndex σ F) (s : σ) (query : List F) :
    ∀ (iter cs : List String) (cl : List (Record F)) (cs1 : List String)
      (cl1 : List (Record F)),
      (scanBucket lsh s query iter cs cl).2 = .ok (cs1, cl1) →
      ∀ r ∈ cl1, r ∈ cl ∨ r.ID ∈ iter := by
  intro iter
  induction iter with
  | nil =>
    intro cs cl cs1 cl1 h r hr
    have hout : cs1 = cs ∧ cl1 = cl := by
      by_cases hcap : lsh.config.MaxNN ≤ (cl.length : Int)
      · rw [scanBucket_cap lsh s query [] cs cl hcap] at h
        simpa [eq_comm] using h
      · rw [scanBucket_nil lsh s query cs cl hcap] at h
        simpa [eq_comm] using h
    rw [hout.2] at hr
    exact Or.inl hr
  | cons id0 rest ih =>
    intro cs cl cs1 cl1 h r hr
    by_cases hcap : lsh.config.MaxNN ≤ (cl.length : Int)
    · rw [scanBucket_cap lsh s query _ cs cl hcap] at h
      have hout : cs1 = cs ∧ cl1 = cl := by simpa [eq_comm] using h
      rw [hout.2] at hr
      exact Or.inl hr
    by_cases hseen : id0 ∈ cs
    · rw [scanBucket_seen lsh s query id0 rest cs cl hcap hseen] at h
      exact (ih cs cl cs1 cl1 h r hr).imp_right (List.mem_cons_of_mem _)
    rcases hvec : lsh.index.GetVector id0 s with err | vec0
    · rw [scanBucket_fail lsh s query id0 rest cs cl err hcap hseen hvec] at h
      cases h
    · by_cases hd0 : lsh.distanceMetric.GetDist vec0 query ≤ lsh.config.DistanceThrsh
      · rw [scanBucket_near lsh s query id0 rest cs cl vec0 hcap hseen hvec hd0] at h
        rcases ih _ _ cs1 cl1 h r hr with hr1 | hr1
        · rcases List.mem_append.mp hr1 with hr1 | hr1
          · exact Or.inl hr1
          · rw [List.mem_singleton] at hr1
            subst hr1
            exact Or.inr (List.mem_cons_self _ _)
        · exact Or.inr (List.mem_cons_of_mem _ hr1)
      · rw [scanBucket_far lsh s query id0 rest cs cl vec0 hcap hseen hvec hd0] at h
        exact (ih cs cl cs1 cl1 h r hr).imp_right (List.mem_cons_of_mem _)

/-- A record the outer loop returns was there before or has an id that the
iterator of one of the probed buckets yielded. -/
theorem probe_sound (lsh : LSHIndex σ F) (s : σ) (query : List F) :
    ∀ (hashes : List (Int × Nat)) (cs : List String) (cl res : List (Record F)),
      (probe lsh s query hashes cs cl).2 = .ok res →
      ∀ r ∈ res, r ∈ cl ∨ ∃ ph ∈ hashes, ∃ iter,
        lsh.index.GetHashIterator ph.1 ph.2 s = .ok iter ∧ r.ID ∈ iter := by
  intro hashes
  induction hashes with
  | nil =>
    intro cs cl res h r hr
    simp only [probe, Except.ok.injEq] at h
    subst h
    exact Or.inl hr
  | cons ph0 rest ih =>
    intro cs cl res h r hr
    obtain ⟨perm, hash⟩ := ph0
    by_cases hcap : lsh.config.MaxNN ≤ (cl.length : Int)
    · rw [probe_cap lsh s query _ cs cl hcap] at h
      simp only [Except.ok.injEq] at h
      subst h
      exact Or.inl hr
    rcases hiter : lsh.index.GetHashIterator perm hash s with err | iter0
    · rw [probe_miss lsh s query perm hash rest cs cl err hcap hiter] at h
      rcases ih cs cl res h r hr with h1 | ⟨ph, hph, it, hit, hid⟩
      · exact Or.inl h1
      · exact Or.inr ⟨ph, List.mem_cons_of_mem _ hph, it, hit, hid⟩
    · rcases hsc : scanBucket lsh s query iter0 cs cl with ⟨calls, err | ⟨cs1, cl1⟩⟩
      · rw [probe_fail lsh s query perm hash rest cs cl iter0 calls err hcap hiter hsc] at h
        cases h
      · rw [probe_next lsh s query perm hash rest cs cl iter0 calls cs1 cl1 hcap hiter hsc] at h
        rcases ih cs1 cl1 res h r hr with h1 | ⟨ph, hph, it, hit, hid⟩
        · rcases scanBucket_sound lsh s query iter0 cs cl cs1 cl1 (by rw [hsc]) r h1
            with h2 | h2
          · exact Or.inl h2
          · exact Or.inr ⟨(perm, hash), List.mem_cons_self _ _, iter0, hiter, h2⟩
        · exact Or.inr ⟨ph, List.mem_cons_of_mem _ hph, it, hit, hid⟩

/-- C14 (amended): Search probes the permutations in the order the range over
the map `hashes` yields them.  Two runs on the same store state, hasher, metric,
config and query, over any two enumerations of that map, return the same set of
ids when both succeed with fewer than `MaxNN` records. -/
theorem SearchOn_ids_order_independent (lsh : LSHIndex σ F) (s : σ) (query : List F)
    (order1 order2 : List (Int × Nat))
    (h1 : order1.Perm (lsh.hasher.getHashes query))
    (h2 : order2.Perm (lsh.hasher.getHashes query))
    (res1 res2 : List (Record F))
    (hres1 : (SearchOn lsh s query order1).2 = .ok res1)
    (hres2 : (SearchOn lsh s query order2).2 = .ok res2)
    (hlt1 : (res1.length : Int) < lsh.config.MaxNN)
    (hlt2 : (res2.length : Int) < lsh.config.MaxNN) (id : String) :
    id ∈ res1.map Record.ID ↔ id ∈ res2.map Record.ID := by
  have key : ∀ (oa ob : List (Int × Nat)) (ra rb : List (Record F)),
      (∀ ph, ph ∈ oa → ph ∈ ob) →
      (SearchOn lsh s query oa).2 = .ok ra → (SearchOn lsh s query ob).2 = .ok rb →
      (rb.length : Int) < lsh.config.MaxNN →
      id ∈ ra.map Record.ID → id ∈ rb.map Record.ID := by
    intro oa ob ra rb hsub ha hb hltb hid
    obtain ⟨r, hr, hrid⟩ := List.mem_map.mp hid
    obtain ⟨hvec, hd⟩ := SearchOn_records_stored lsh s query oa ra ha r hr
    rcases probe_sound lsh s query oa [] [] ra ha r hr with hnil | ⟨ph, hph, iter, hiter, hin⟩
    · cases hnil
    · rw [← hrid]
      exact (probe_complete lsh s query ob [] [] rb (by intro i hi; cases hi) hb).2
        (by omega) ph (hsub ph hph) iter hiter r.ID hin r.Vec hvec hd
  constructor
  · exact key order1 order2 res1 res2
      (fun ph hph => h2.mem_iff.mpr (h1.mem_iff.mp hph)) hres1 hres2 hlt2
  · exact key order2 order1 res2 res1
      (fun ph hph => h1.mem_iff.mpr (h2.mem_iff.mp hph)) hres2 hres1 hlt1

/-- C14 as stated fails: with `MaxNN = 1` and a neighbour in the bucket of each
of two permutations, the two enumerations of the same map of hashes return
different sets of ids. -/
theorem SearchOn_ids_depend_on_order :
    [((1 : Int), 1), (0, 1)].Perm (capOneIndex.hasher.getHashes [1, 0]) ∧
      (SearchOn capOneIndex twoBucketState [1, 0] [(0, 1), (1, 1)]).2
        = .ok [⟨"a", [1, 0]⟩] ∧
      (SearchOn capOneIndex twoBucketState [1, 0] [(1, 1), (0, 1)]).2
        = .ok [⟨"b", [1, 0]⟩] ∧
      ¬ ("a" ∈ ([⟨"b", [1, 0]⟩] : List (Record Int)).map Record.ID) := by
  refine ⟨List.Perm.swap _ _ _, rfl, rfl, by decide⟩

/-- C14 (amended) at the same store with room for 5 neighbours: both
enumerations return `a` and `b`. -/
theorem SearchOn_ids_order_independent_witness :
    "b" ∈ ([⟨"a", [1, 0]⟩, ⟨"b", [1, 0]⟩] : List (Record Int)).map Record.ID ↔
      "b" ∈ ([⟨"b", [1, 0]⟩, ⟨"a", [1, 0]⟩] : List (Record Int)).map Record.ID :=
  SearchOn_ids_order_independent
    (⟨⟨1, 5, 1⟩, memStore, twoPermHasher, sqDist⟩ : LSHIndex (MemState Int) Int)
    twoBucketState [1, 0] [(0, 1), (1, 1)] [(1, 1), (0, 1)]
    (List.Perm.refl _) (List.Perm.swap _ _ _) _ _ (by rfl) (by rfl)
    (by decide) (by decide) "b"

end SearchOrder

/-! ## Search on a query of another length than the index was built for -/

section SearchWrongLength

variable {σ F : Type} [LE F] [∀ a b : F, Decidable (a ≤ b)]

/-- For a query of the length the index was built for, Search as a call returns
what `Search` returns. -/
theorem SearchCall_right_length (lsh : LSHIndex σ F)
    (wrongLength : List F → Option (List (Int × Nat))) (s : σ) (query : List F)
    (hlen : query.length = lsh.hasher.Dims) :
    SearchCall lsh wrongLength s query = .returned (Search lsh s query) := by
  unfold SearchCall callGetHashes
  rw [if_pos hlen]
  rfl

/-- Whatever the call of line 100 gave, Search does not return, or returns a
result list with a nil error, or returns the error of a `GetVector` call it
made. -/
theorem SearchFrom_outcomes (lsh : LSHIndex σ F) (s : σ) (query : List F)
    (answer : Option (List (Int × Nat))) :
    (answer = none ∧ SearchFrom lsh s query answer = .panicked) ∨
      (∃ res, SearchFrom lsh s query answer = .returned (.ok res)) ∨
      (∃ e id, SearchFrom lsh s query answer = .returned (.error e) ∧
        lsh.index.GetVector id s = .error e) := by
  cases answer with
  | none => exact Or.inl ⟨rfl, rfl⟩
  | some hashes =>
    rcases hres : (SearchOn lsh s query hashes).2 with e | res
    · obtain ⟨id, _, hv⟩ := (probe_error_iff lsh s query e hashes [] []).mp hres
      exact Or.inr (Or.inr ⟨e, id, by simp only [SearchFrom, hres], hv⟩)
    · exact Or.inr (Or.inl ⟨res, by simp only [SearchFrom, hres]⟩)

/-- An error Search returns, whatever the call of line 100 gave, is an error
`GetVector` answers with on this store. -/
theorem SearchFrom_error_origin (lsh : LSHIndex σ F) (s : σ) (query : List F)
    (answer : Option (List (Int × Nat))) (e : GoError)
    (h : SearchFrom lsh s query answer = .returned (.error e)) :
    ∃ id, lsh.index.GetVector id s = .error e := by
  rcases SearchFrom_outcomes lsh s query answer with ⟨_, h1⟩ | ⟨res, h1⟩ | ⟨e1, id, h1, hv⟩
  · rw [h1] at h
    cases h
  · rw [h1] at h
    cases h
  · rw [h1] at h
    cases h
    exact ⟨id, hv⟩

/-- C9 (amended): for an index built for dimension D and a query whose length
differs from D, Search makes no length check: the outcome is the one of the
loops over whatever `getHashes` does with the query.  If `getHashes` does not
return, neither does Search; otherwise Search returns a result list with a nil
error or, unchanged, the error of a failed `GetVector` call.  So it returns the
dimension-mismatch error `DistanceErr` only when the store itself answers a
`GetVector` call with it. -/
theorem Search_wrong_dimension_unchecked (lsh : LSHIndex σ F)
    (wrongLength : List F → Option (List (Int × Nat))) (s : σ) (query : List F)
    (hlen : query.length ≠ lsh.hasher.Dims) :
    SearchCall lsh wrongLength s query = SearchFrom lsh s query (wrongLength query) ∧
      ((wrongLength query = none ∧ SearchCall lsh wrongLength s query = .panicked) ∨
        (∃ res, SearchCall lsh wrongLength s query = .returned (.ok res)) ∨
        (∃ e id, SearchCall lsh wrongLength s query = .returned (.error e) ∧
          lsh.index.GetVector id s = .error e)) ∧
      ((∀ id, lsh.index.GetVector id s ≠ .error GoError.DistanceErr) →
        SearchCall lsh wrongLength s query ≠ .returned (.error GoError.DistanceErr)) := by
  have hcall : SearchCall lsh wrongLength s query =
      SearchFrom lsh s query (wrongLength query) := by
    unfold SearchCall callGetHashes
    rw [if_neg hlen]
  refine ⟨hcall, ?_, ?_⟩
  · rw [hcall]
    exact SearchFrom_outcomes lsh s query (wrongLength query)
  · intro hstore h
    rw [hcall] at h
    obtain ⟨id, hv⟩ := SearchFrom_error_origin lsh s query _ GoError.DistanceErr h
    exact hstore id hv

/-- The contract store answers a failed `GetVector` with its miss only. -/
theorem memStore_GetVector_error {G : Type} (s : MemState G) (id : String) (e : GoError)
    (h : memStore.GetVector id s = .error e) : e = GoError.notFound := by
  change (match s.vectors id with
    | some vec => Except.ok vec
    | none => Except.error GoError.notFound) = _ at h
  rcases hv : s.vectors id with _ | v
  · rw [hv] at h
    simp only [Except.error.injEq] at h
    exact h.symm
  · rw [hv] at h
    cases h

/-- C9 as stated fails: the index is built for dimension 2 and the query has
length 3.  Whatever `getHashes` does with that query, Search does not return
the dimension-mismatch error: when `getHashes` does not return, neither does
Search; when it returns the pair `(0, 1)`, Search fetches the vectors of the
bucket, compares their distances and returns three records with a nil error;
over a bucket with an id that has no vector it returns the miss of
`GetVector`. -/
theorem SearchCall_never_returns_DistanceErr :
    ([1, 0, 0] : List Int).length ≠ wideIndex.hasher.Dims ∧
      (¬ ∃ wrongLength, SearchCall wideIndex wrongLength demoState [1, 0, 0]
        = .returned (.error GoError.DistanceErr)) ∧
      SearchCall wideIndex (fun _ => none) demoState [1, 0, 0] = .panicked ∧
      SearchCall wideIndex (fun _ => some [(0, 1)]) demoState [1, 0, 0]
        = .returned (.ok [⟨"a", [1, 0]⟩, ⟨"b", [2, 0]⟩, ⟨"c", [1, 1]⟩]) ∧
      StoreCall.getVector "c" ∈ (SearchOn wideIndex demoState [1, 0, 0] [(0, 1)]).1 ∧
      SearchCall wideIndex (fun _ => some [(0, 1)]) danglingState [1, 0, 0]
        = .returned (.error GoError.notFound) := by
  refine ⟨by decide, ?_, rfl, rfl, by decide, rfl⟩
  rintro ⟨wrongLength, h⟩
  obtain ⟨id, hv⟩ := SearchFrom_error_origin wideIndex demoState [1, 0, 0] _ _ h
  have hne := memStore_GetVector_error demoState id _ hv
  cases hne

/-- C9 (amended) at the index of dimension 2, a query of length 3 and a hasher
that answers it with the pair `(0, 1)`: Search returns the three records of the
bucket that are within the threshold, with a nil error. -/
theorem Search_wrong_dimension_unchecked_witness :
    SearchCall wideIndex (fun _ => some [(0, 1)]) demoState [1, 0, 0]
      = .returned (.ok [⟨"a", [1, 0]⟩, ⟨"b", [2, 0]⟩, ⟨"c", [1, 1]⟩]) :=
  (Search_wrong_dimension_unchecked wideIndex (fun _ => some [(0, 1)]) demoState
    [1, 0, 0] (by decide)).1

end SearchWrongLength

end Lsh

namespace Annbench

open Lsh (GoError)

/-! ## Recall: what the loop counts and when it stays in bounds -/

section RecallLemmas

/-- When the predictions left fit into `groundTruth` from index `i` on, the
loop ends and adds the number of positions at which the two slices agree. -/
theorem recallLoop_eq_countP (groundTruth : List Int) :
    ∀ (prediction : List Int) (i valid : Nat),
      prediction.length + i ≤ groundTruth.length →
      recallLoop groundTruth prediction i valid =
        some (valid + (prediction.zip (groundTruth.drop i)).countP
          (fun pg => decide (pg.1 = pg.2))) := by
  intro prediction
  induction prediction with
  | nil => intro i valid _; simp [recallLoop]
  | cons p rest ih =>
    intro i valid hlen
    simp only [List.length_cons] at hlen
    have hi : i < groundTruth.length := by omega
    have hget : groundTruth.get? i = some (groundTruth.get ⟨i, hi⟩) := List.get?_eq_get hi
    rw [List.drop_eq_getElem_cons hi]
    simp only [recallLoop, hget, List.zip_cons_cons, List.countP_cons]
    rw [ih (i + 1) _ (by omega)]
    simp only [List.get_eq_getElem, decide_eq_true_eq]
    split_ifs <;> simp
    all_goals omega

/-- When more predictions are left than `groundTruth` has entries from index
`i` on, the loop runs out of range. -/
theorem recallLoop_out_of_range (groundTruth : List Int) :
    ∀ (prediction : List Int) (i valid : Nat), i ≤ groundTruth.length →
      groundTruth.length < prediction.length + i →
      recallLoop groundTruth prediction i valid = none := by
  intro prediction
  induction prediction with
  | nil =>
    intro i valid hi hlen
    simp only [List.length_nil, Nat.zero_add] at hlen
    omega
  | cons p rest ih =>
    intro i valid hi hlen
    simp only [List.length_cons] at hlen
    by_cases hlt : i < groundTruth.length
    · have hget : groundTruth.get? i = some (groundTruth.get ⟨i, hlt⟩) :=
        List.get?_eq_get hlt
      simp only [recallLoop, hget]
      exact ih (i + 1) _ (by omega) (by omega)
    · have hget : groundTruth.get? i = none := List.get?_eq_none.mpr (by omega)
      simp only [recallLoop, hget]

/-- The count of agreeing positions is at most the number of predictions. -/
theorem countP_zip_le (prediction groundTruth : List Int) :
    (prediction.zip groundTruth).countP (fun pg => decide (pg.1 = pg.2)) ≤
      prediction.length := by
  refine le_trans (List.countP_le_length _) ?_
  rw [List.length_zip]
  exact Nat.min_le_left _ _

end RecallLemmas

section RecallClaims

/-- C19: Recall reads `groundTruth` only inside its bounds exactly when
`len(prediction) ≤ len(groundTruth)`: then, for a non-empty `groundTruth`, it
returns a value in `[0, 1]`; with `len(prediction) > len(groundTruth)` it fails
with an index out of range. -/
theorem Recall_in_bounds_iff (prediction groundTruth : List Int) :
    ((Recall prediction groundTruth).isSome = true ↔
        prediction.length ≤ groundTruth.length) ∧
      (prediction.length ≤ groundTruth.length → groundTruth ≠ [] →
        ∃ q, Recall prediction groundTruth = some (.val q) ∧ 0 ≤ q ∧ q ≤ 1) ∧
      (groundTruth.length < prediction.length → Recall prediction groundTruth = none) := by
  have hin : prediction.length ≤ groundTruth.length →
      Recall prediction groundTruth = some (floatDiv
        ((prediction.zip groundTruth).countP (fun pg => decide (pg.1 = pg.2)))
        groundTruth.length) := by
    intro hle
    unfold Recall
    rw [recallLoop_eq_countP groundTruth prediction 0 0 (by omega)]
    simp
  have hout : groundTruth.length < prediction.length →
      Recall prediction groundTruth = none := by
    intro hlt
    unfold Recall
    rw [recallLoop_out_of_range groundTruth prediction 0 0 (by omega) (by omega)]
    rfl
  refine ⟨?_, ?_, hout⟩
  · constructor
    · intro hsome
      by_contra hle
      rw [hout (by omega)] at hsome
      cases hsome
    · intro hle
      rw [hin hle]
      rfl
  · intro hle hne
    have hpos : 0 < groundTruth.length := List.length_pos.mpr hne
    have hcount := countP_zip_le prediction groundTruth
    refine ⟨(((prediction.zip groundTruth).countP (fun pg => decide (pg.1 = pg.2)) : Nat) : Rat) /
      ((groundTruth.length : Nat) : Rat), ?_, ?_, ?_⟩
    · rw [hin hle]
      unfold floatDiv
      rw [if_neg (by omega)]
    · positivity
    · rw [div_le_one (by exact_mod_cast hpos)]
      exact_mod_cast le_trans hcount hle

/-- C15 fails on the code: for the ascending lists `[2, 3]` and `[1, 2, 3]`, both
predictions occur in the ground truth, so the ratio of relevant predictions is
`2/3`; Recall compares `prediction[i]` with `groundTruth[i]` and returns `0`. -/
theorem Recall_compares_positions :
    List.Sorted (fun a b : Int => a < b) [2, 3] ∧
      List.Sorted (fun a b : Int => a < b) [1, 2, 3] ∧
      ([2, 3] : List Int).length ≤ ([1, 2, 3] : List Int).length ∧
      Recall [2, 3] [1, 2, 3] = some (.val 0) ∧
      relevantRatio [2, 3] [1, 2, 3] = .val (2 / 3) ∧
      Recall [2, 3] [1, 2, 3] ≠ some (relevantRatio [2, 3] [1, 2, 3]) := by
  have h1 : Recall [2, 3] [1, 2, 3] = some (.val 0) := by
    simp [Recall, recallLoop, floatDiv]
  have h2 : relevantRatio [2, 3] [1, 2, 3] = .val (2 / 3) := by
    simp [relevantRatio, floatDiv]
  refine ⟨by decide, by decide, by decide, h1, h2, ?_⟩
  rw [h1, h2]
  intro h
  simp only [Option.some.injEq, FloatQuot.val.injEq] at h
  norm_num at h

end RecallClaims

/-! ## Validate: the slice it returns -/

section ValidateClaims

variable {ρ F : Type}

/-- When `ValidateThrsh` succeeds for every threshold, the loop appends the
recall values, in order, to the slice it starts with. -/
theorem validateLoop_appends (validateThrsh : ρ → F → Except GoError F) (results : ρ)
    (score : F → F) :
    ∀ (thrshs metrics : List F),
      (∀ t ∈ thrshs, validateThrsh results t = .ok (score t)) →
      validateLoop validateThrsh results thrshs metrics = .ok (metrics ++ thrshs.map score) := by
  intro thrshs
  induction thrshs with
  | nil => intro metrics _; simp [validateLoop]
  | cons t rest ih =>
    intro metrics hok
    simp only [validateLoop, hok t (List.mem_cons_self _ _)]
    rw [ih (metrics ++ [score t]) (fun u hu => hok u (List.mem_cons_of_mem _ hu))]
    simp

/-- When Validate succeeds it returns `len(thrshs)` zeros followed by the
`len(thrshs)` recall values: `make([]float64, len(thrshs))` followed by
`append`. -/
theorem Validate_returns_zeros_then_recalls [Zero F] (results : ρ)
    (validateThrsh : ρ → F → Except GoError F) (score : F → F) (thrshs : List F)
    (hok : ∀ t ∈ thrshs, validateThrsh results t = .ok (score t)) :
    Validate (.ok results) validateThrsh thrshs =
      .ok (List.replicate thrshs.length (0 : F) ++ thrshs.map score) :=
  validateLoop_appends validateThrsh results score thrshs _ hok

/-- C16 fails on the code: for the thresholds `[5, 7]`, with recalls 6 and 8,
Validate returns the 4 entries `[0, 0, 6, 8]`; its entry 0 is 0, not the recall
6 of threshold 5. -/
theorem Validate_pads_with_zeros :
    Validate (.ok ()) (fun (_ : Unit) (t : Int) => (.ok (t + 1) : Except GoError Int)) [5, 7]
      = .ok [0, 0, 6, 8] := by
  rfl

end ValidateClaims

/-! ## putBatch: the buffer index -/

section PutBatchClaims

variable {F : Type}

/-- The loop runs out of the buffer exactly when the documents left that
decode are more than the free entries of the buffer. -/
theorem putBatchLoop_none_iff :
    ∀ (cursor : List (Option (VectorRecord F))) (batch : List (RequestData F))
      (batchID : Nat), batchID ≤ batch.length →
      (putBatchLoop cursor batch batchID = none ↔
        batch.length < batchID + (cursor.filterMap id).length) := by
  intro cursor
  induction cursor with
  | nil =>
    intro batch batchID hle
    simp only [putBatchLoop, List.filterMap_nil, List.length_nil, Nat.add_zero]
    constructor
    · intro h; cases h
    · intro h; omega
  | cons doc rest ih =>
    intro batch batchID hle
    cases doc with
    | none =>
      simp only [putBatchLoop, List.filterMap_cons_none, id_eq]
      exact ih batch batchID hle
    | some record =>
      have hfm : ((some record :: rest).filterMap id).length =
          (rest.filterMap id).length + 1 := by
        simp
      rw [hfm]
      by_cases hlt : batchID < batch.length
      · simp only [putBatchLoop, if_pos hlt]
        rw [ih _ (batchID + 1) (by rw [List.length_set]; omega), List.length_set]
        omega
      · simp only [putBatchLoop, if_neg hlt]
        constructor
        · intro _; omega
        · intro _; trivial

/-- For a non-negative batch size putBatch panics exactly when the cursor
holds more decodable documents than `batchSize`. -/
theorem putBatch_panicked_iff (putHashes : List (RequestData F) → Option GoError)
    (cursor : List (Option (VectorRecord F))) (batchSize : Int) (hb : 0 ≤ batchSize) :
    putBatch putHashes cursor batchSize = .panicked ↔
      batchSize.toNat < (cursor.filterMap id).length := by
  have hloop := putBatchLoop_none_iff cursor
    (List.replicate batchSize.toNat (⟨0, []⟩ : RequestData F)) 0 (Nat.zero_le _)
  rw [List.length_replicate, Nat.zero_add] at hloop
  unfold putBatch
  rw [if_neg (by omega)]
  rcases hres : putBatchLoop cursor
    (List.replicate batchSize.toNat (⟨0, []⟩ : RequestData F)) 0 with _ | ⟨batch, batchID⟩
  · simp only [true_iff]
    exact hloop.mp hres
  · simp only [reduceCtorEq, false_iff]
    intro hlt
    rw [hloop.mpr hlt] at hres
    cases hres

/-- C18 fails on the code: with `batchSize = 1` and two decodable documents
left in the cursor the loop does not stop after one document; it indexes
`batch[1]` in a buffer of length 1, which is out of range, and `PutHashes` is
never called. -/
theorem putBatch_overruns_buffer :
    putBatch (fun _ => none)
      [some (⟨1, [1, 0], []⟩ : VectorRecord Int), some ⟨2, [2, 0], []⟩] 1 = .panicked := by
  rfl

end PutBatchClaims

section RecallWitness

/-- C19 at `[1, 3]` against `[1, 2, 3]`: one position agrees, the value is
`1/3`. -/
theorem Recall_in_bounds_iff_witness :
    ∃ q, Recall [1, 3] [1, 2, 3] = some (.val q) ∧ 0 ≤ q ∧ q ≤ 1 :=
  (Recall_in_bounds_iff [1, 3] [1, 2, 3]).2.1 (by decide) (by decide)

end RecallWitness

end Annbench
